import Mathlib

/-!
Shallow embedding of the SpriteDicing core pipeline (crates/lib/src/dicer.rs,
crates/lib/src/packer.rs, crates/lib/src/models.rs) and proofs about the
frozen claims.

Modelling conventions:
* `u32` values are modelled as `Nat`.  The two places where `u32` wrap-around
  or division by zero is reachable for the inputs the claims quantify over are
  modelled explicitly: the padded-unit-size / unit-capacity computation of the
  packer (`% 2^32`, with division by zero surfaced as `none` = aborted run,
  matching the Rust division panic in `new_ctx`), and the `as u32` casts in
  `find_packable_texture`.  Other `u32` arithmetic (pixel indices, atlas
  dimensions) is modelled on `Nat`; for realistic image sizes it never wraps.
* `f32` is modelled as `ℚ`.  The UV computations are pure field arithmetic
  (add/sub/mul/div), so the algebraic shape the claims describe is captured
  exactly; f32 rounding is not modelled.  The only other float use,
  `(units_count as f32).sqrt().ceil()`, is modelled as the exact ceiling
  square root on `Nat`, which agrees with f32 for all counts below 2^24.
* Rust `HashMap<u64, UnitRef>` is modelled as an association list with
  insert-replace semantics (`insertAL`); `HashMap::extend` folds `insertAL`
  over the new entries, so later inserts overwrite earlier ones exactly as in
  Rust.  `HashSet<u64>` (the `unique` field) is modelled as a duplicate-free
  list; `HashSet<usize>` (the `packed` index set) as a list used only through
  membership.  `len()` of a map is the number of distinct keys.
* The stable 64-bit content hash (`DefaultHasher`, fixed seed) is modelled as
  an arbitrary function `hashFn : List Pixel → Nat` that every dicer
  definition takes as a parameter; all dicing theorems hold for every such
  function, which in particular covers the real SipHash instance.  The packer
  never hashes, so it takes no such parameter.
* Error messages are modelled as constructors of `Err`:
  `insetRange`  = "UV inset should be in 0.0 to 0.5 range.",
  `limitZero`   = "Atlas size limit can not be zero." (source text uses an
                  apostrophe form),
  `unitAboveLimit` = "Unit size can not be above atlas size limit.",
  `cantFit`     = "Can not fit single texture; increase atlas size limit.",
  `unitZero`    = "Unit size can not be zero.",
  `padAboveUnit`= "Padding can not be above unit size.".
* `Progress::report` only invokes an optional callback and has no effect on
  the produced data, so it is omitted.
-/

namespace SD

/-- Pixel with 8-bit RGBA components (models.rs `Pixel`). -/
structure Pixel where
  r : Nat
  g : Nat
  b : Nat
  a : Nat
deriving DecidableEq, Repr

/-- Default pixel (0,0,0,0), the transparent default of `Pixel::default()`. -/
def tPix : Pixel := ⟨0, 0, 0, 0⟩

/-- Texture: width, height and a row-major pixel buffer (models.rs `Texture`). -/
structure Texture where
  width : Nat
  height : Nat
  pixels : List Pixel
deriving DecidableEq, Repr

/-- Rectangle in signed integer space (models.rs `IRect`). -/
structure IRect where
  x : Int
  y : Int
  width : Nat
  height : Nat
deriving DecidableEq, Repr

/-- Rectangle in unsigned integer space (models.rs `URect`). -/
structure URect where
  x : Nat
  y : Nat
  width : Nat
  height : Nat
deriving DecidableEq, Repr

/-- Rectangle in rational space, modelling the f32 `FRect` of models.rs. -/
structure FRect where
  x : ℚ
  y : ℚ
  width : ℚ
  height : ℚ
deriving DecidableEq, Repr

/-- Size in unsigned integer space (models.rs `USize`). -/
structure USize where
  width : Nat
  height : Nat
deriving DecidableEq, Repr

/-- Source sprite (models.rs `SourceSprite`); the pivot is an optional pair of
rationals and plays no role in dicing or packing. -/
structure SourceSprite where
  id : String
  texture : Texture
  pivot : Option (ℚ × ℚ)
deriving DecidableEq, Repr

/-- Diced unit (models.rs `DicedUnit`). -/
structure DicedUnit where
  rect : URect
  pixels : List Pixel
  hash : Nat
deriving DecidableEq, Repr

/-- Diced texture (models.rs `DicedTexture`); `unique` models the `HashSet`
of distinct unit hashes as a duplicate-free list. -/
structure DicedTexture where
  id : String
  size : USize
  pivot : Option (ℚ × ℚ)
  units : List DicedUnit
  unique : List Nat
deriving DecidableEq, Repr

/-- Preferences (models.rs `Prefs`); `trim_transparent`, `ppu`, `pivot` and
`on_progress` do not influence the dicer or the packer and are omitted. -/
structure Prefs where
  unitSize : Nat
  padding : Nat
  uvInset : ℚ
  atlasSizeLimit : Nat
  atlasSquare : Bool
  atlasPot : Bool
deriving DecidableEq, Repr

/-- Spec errors of models.rs `Error::Spec`; each constructor stands for one
of the six static message strings (see the file header). -/
inductive Err where
  | insetRange
  | limitZero
  | unitAboveLimit
  | cantFit
  | unitZero
  | padAboveUnit
deriving DecidableEq, Repr

/-! ## Dicer (crates/lib/src/dicer.rs) -/

/-- Ceiling division, modelling `u32::div_ceil` (whose divisor is nonzero at
every reachable call: `dice` rejects `unit_size == 0` before dicing). -/
def divCeil (a b : Nat) : Nat := (a + b - 1) / b

/-- Dicing context (dicer.rs `Context`). -/
structure DCtx where
  size : Nat
  pad : Nat
  sprite : SourceSprite
deriving DecidableEq, Repr

/-- Builds the dicing context (dicer.rs `new_ctx`). -/
def newDCtx (sprite : SourceSprite) (prefs : Prefs) : DCtx :=
  ⟨prefs.unitSize, prefs.padding, sprite⟩

/-- Clamps `n` into `[0, max]` (dicer.rs `saturate`). -/
def saturate (n : Int) (max : Nat) : Nat :=
  if n < 0 then 0 else if n > (max : Int) then max else n.toNat

/-- Border-clamped pixel sampling (dicer.rs `get_pixel`).  For a zero-size
texture the Rust `tex.width - 1` computation would underflow on `u32`;
theorem `dicer_total_on_zero_area` below shows that case is unreachable,
so the `Nat` truncation here is never exercised on a zero-size texture. -/
def get_pixel (x y : Int) (tex : Texture) : Pixel :=
  let xc := saturate x (tex.width - 1)
  let yc := saturate y (tex.height - 1)
  tex.pixels.getD (xc + tex.width * yc) tPix

/-- Samples all pixels of `rect` row by row with border clamping
(dicer.rs `get_pixels`); the iteration order (y outer, x inner, row-major
fill) matches the Rust double loop. -/
def get_pixels (rect : IRect) (tex : Texture) : List Pixel :=
  (List.range rect.height).flatMap fun dy =>
    (List.range rect.width).map fun dx =>
      get_pixel (rect.x + dx) (rect.y + dy) tex

/-- Expands a rect by `pad` on each side (dicer.rs `pad_rect`). -/
def pad_rect (rect : IRect) (pad : Nat) : IRect :=
  ⟨rect.x - pad, rect.y - pad, rect.width + pad * 2, rect.height + pad * 2⟩

/-- Crops a unit rect to the texture borders (dicer.rs `crop_over_borders`);
`rect.x`/`rect.y` are nonnegative at every call site, so `Int.toNat` models
the `as u32` cast exactly. -/
def crop_over_borders (rect : IRect) (tex : Texture) : URect :=
  ⟨rect.x.toNat, rect.y.toNat,
   min rect.width (tex.width - rect.x.toNat),
   min rect.height (tex.height - rect.y.toNat)⟩

/-- Dices one grid cell (dicer.rs `dice_at`), parametrised by the content
hash function. -/
def dice_at (hashFn : List Pixel → Nat) (unitX unitY : Nat) (ctx : DCtx) :
    Option DicedUnit :=
  let unit_rect : IRect :=
    ⟨(unitX : Int) * ctx.size, (unitY : Int) * ctx.size, ctx.size, ctx.size⟩
  let unit_pixels := get_pixels unit_rect ctx.sprite.texture
  if unit_pixels.all (fun p => p.a = 0) then none
  else
    some { rect := crop_over_borders unit_rect ctx.sprite.texture
           pixels := get_pixels (pad_rect unit_rect ctx.pad) ctx.sprite.texture
           hash := hashFn unit_pixels }

/-- Units produced for one sprite, in the column-major (x outer, y inner)
iteration order of dicer.rs `dice_it`. -/
def diceUnits (hashFn : List Pixel → Nat) (ctx : DCtx) : List DicedUnit :=
  (List.range (divCeil ctx.sprite.texture.width ctx.size)).flatMap fun x =>
    (List.range (divCeil ctx.sprite.texture.height ctx.size)).filterMap fun y =>
      dice_at hashFn x y ctx

/-- Dices one sprite (dicer.rs `dice_it`); returns `none` when no unit
survives. -/
def dice_it (hashFn : List Pixel → Nat) (ctx : DCtx) : Option DicedTexture :=
  let units := diceUnits hashFn ctx
  if units.isEmpty then none
  else
    some { id := ctx.sprite.id
           size := ⟨ctx.sprite.texture.width, ctx.sprite.texture.height⟩
           pivot := ctx.sprite.pivot
           units := units
           unique := (units.map (·.hash)).dedup }

/-- Dices all sprites (dicer.rs `dice`). -/
def dice (hashFn : List Pixel → Nat) (sprites : List SourceSprite)
    (prefs : Prefs) : Except Err (List DicedTexture) :=
  if prefs.unitSize = 0 then .error .unitZero
  else if prefs.padding > prefs.unitSize then .error .padAboveUnit
  else .ok (sprites.filterMap fun s => dice_it hashFn (newDCtx s prefs))

/-! ## Packer (crates/lib/src/packer.rs) -/

/-- Exact rational addition through `Rat.divInt` (kernel-computable; the
lemma `qadd_eq` below identifies it with `+` on `ℚ`).  The f32 operations of
packer.rs are modelled as exact rational arithmetic. -/
def qadd (a b : ℚ) : ℚ := Rat.divInt (a.num * b.den + b.num * a.den) (a.den * b.den)

/-- Exact rational subtraction through `Rat.divInt` (equals `-` on `ℚ`). -/
def qsub (a b : ℚ) : ℚ := Rat.divInt (a.num * b.den - b.num * a.den) (a.den * b.den)

/-- Exact rational multiplication through `Rat.divInt` (equals `*` on `ℚ`). -/
def qmul (a b : ℚ) : ℚ := Rat.divInt (a.num * b.num) (a.den * b.den)

/-- Exact rational division through `Rat.divInt` (equals `/` on `ℚ`,
including the `x / 0 = 0` convention). -/
def qdiv (a b : ℚ) : ℚ := Rat.divInt (a.num * b.den) (a.den * b.num)

/-- The constant `0.5` of the `uv_inset > 0.5` validation. -/
def qHalf : ℚ := Rat.divInt 1 2

/-- Reference to a diced unit of a diced texture (packer.rs `UnitRef`). -/
structure UnitRef where
  texIdx : Nat
  unitIdx : Nat
deriving DecidableEq, Repr

/-- Association-list model of `HashMap<u64, UnitRef>`. -/
abbrev UnitMap := List (Nat × UnitRef)

/-- Packing context (packer.rs `Context`). -/
structure Context where
  inset : ℚ
  square : Bool
  pot : Bool
  sizeLimit : Nat
  unitSize : Nat
  pad : Nat
  paddedUnitSize : Nat
  unitCapacity : Nat
  toPack : List DicedTexture
  packed : List Nat
  units : UnitMap
deriving DecidableEq, Repr

/-- Modulus of `u32` arithmetic. -/
def U32 : Nat := 4294967296

/-- Largest `u32` value, the initial minimum in `find_packable_texture`. -/
def u32Max : Nat := U32 - 1

/-- Padded unit size `unit_size + padding * 2` as computed on `u32`
(packer.rs `new_ctx`); the `% U32` models release-mode wrap-around. -/
def pusOf (prefs : Prefs) : Nat := (prefs.unitSize + prefs.padding * 2) % U32

/-- Unit capacity `(atlas_size_limit / padded_unit_size).pow(2)` on `u32`
(packer.rs `new_ctx`).  The division panics in Rust when the padded unit size
is zero; `pack` below surfaces that case as `none`. -/
def capOf (prefs : Prefs) : Nat :=
  ((prefs.atlasSizeLimit / pusOf prefs) ^ 2) % U32

/-- Builds the packing context (packer.rs `new_ctx`). -/
def newCtx (diced : List DicedTexture) (prefs : Prefs) : Context :=
  { inset := prefs.uvInset
    square := prefs.atlasSquare
    pot := prefs.atlasPot
    sizeLimit := prefs.atlasSizeLimit
    unitSize := prefs.unitSize
    pad := prefs.padding
    paddedUnitSize := pusOf prefs
    unitCapacity := capOf prefs
    toPack := diced
    packed := []
    units := [] }

/-- Association-list lookup (first matching key). -/
def alookup {β : Type} : List (Nat × β) → Nat → Option β
  | [], _ => none
  | p :: l, k => if p.1 = k then some p.2 else alookup l k

/-- Insert-replace on an association list: the semantics of
`HashMap::insert` (an existing key keeps its position, its value is
replaced; a new key is appended). -/
def insertAL {β : Type} (m : List (Nat × β)) (k : Nat) (v : β) :
    List (Nat × β) :=
  if (alookup m k).isSome then
    m.map fun p => if p.1 = k then (k, v) else p
  else m ++ [(k, v)]

/-- Folds `insertAL` over new entries: the semantics of `HashMap::extend`
used by packer.rs `pack_it` (later inserts replace earlier values). -/
def extendAL {β : Type} (m : List (Nat × β)) (refs : List (Nat × β)) :
    List (Nat × β) :=
  refs.foldl (fun acc p => insertAL acc p.1 p.2) m

/-- Number of distinct keys, the semantics of `HashMap::len`. -/
def mapLen {β : Type} (m : List (Nat × β)) : Nat :=
  (m.map Prod.fst).dedup.length

/-- Distinct keys in ascending order: models collecting `HashMap::keys` and
`sort_unstable` in packer.rs `bake_atlas` (the sort is over distinct `u64`
keys, so any correct ascending sort produces the same list). -/
def sortedKeys {β : Type} (m : List (Nat × β)) : List Nat :=
  List.insertionSort (· ≤ ·) (m.map Prod.fst).dedup

/-- Count of a remaining texture's unique hashes missing from the current
atlas unit pool, with the `count() as u32` cast (packer.rs
`find_packable_texture`). -/
def countNew (ctx : Context) (t : DicedTexture) : Nat :=
  ((t.unique.filter fun u => (alookup ctx.units u).isNone).length) % U32

/-- Fold step of the selection loop of packer.rs `find_packable_texture`:
skips already packed indices and keeps the first index realising the strict
minimum of `countNew`. -/
def findStep (ctx : Context) (acc : Option Nat × Nat) (p : Nat × DicedTexture) :
    Option Nat × Nat :=
  if p.1 ∈ ctx.packed then acc
  else if countNew ctx p.2 < acc.2 then (some p.1, countNew ctx p.2) else acc

/-- Picks the next texture for the current atlas (packer.rs
`find_packable_texture`); returns `none` when no texture remains or the
minimum of new units does not fit the remaining capacity.  The admission
test adds `len() as u32 + min` on `u32`, hence the `% U32`. -/
def find_packable_texture (ctx : Context) : Option Nat :=
  match ctx.toPack.enum.foldl (findStep ctx) (none, u32Max) with
  | (none, _) => none
  | (some i, m) =>
      if (mapLen ctx.units % U32 + m) % U32 ≤ ctx.unitCapacity then some i
      else none

/-- Fallback unit for the total model of `ctx.units[hash]` /
`ctx.to_pack[i]` indexing; unreachable at the call sites (the looked-up
hash is always a key, see the lemmas below). -/
def dummyUnit : DicedUnit := ⟨⟨0, 0, 0, 0⟩, [], 0⟩

/-- Fallback texture for total `Vec` indexing. -/
def dummyTex : DicedTexture := ⟨"", ⟨0, 0⟩, none, [], []⟩

/-- Entries merged into the unit pool when texture `i` is admitted: all its
units keyed by hash (packer.rs `pack_it`, the `refs` iterator). -/
def unitEntries (ctx : Context) (i : Nat) : List (Nat × UnitRef) :=
  ((ctx.toPack.getD i dummyTex).units.enum).map fun p =>
    (p.2.hash, ⟨i, p.1⟩)

/-- One admission: records the index and merges the units
(packer.rs `pack_it`, loop body). -/
def admitTex (ctx : Context) (i : Nat) : Context :=
  { ctx with packed := i :: ctx.packed
             units := extendAL ctx.units (unitEntries ctx i) }

/-- Admission loop of packer.rs `pack_it` (`while let Some(tex_idx) = ...`),
with fuel.  Each iteration admits a fresh index below `toPack.length`, so
fuel `toPack.length` never runs out (lemmas below). -/
def packLoop : Nat → Context → Context
  | 0, ctx => ctx
  | fuel + 1, ctx =>
      match find_packable_texture ctx with
      | none => ctx
      | some i => packLoop fuel (admitTex ctx i)

/-- Exact ceiling square root (least `s` with `n ≤ s * s`), modelling
`(units_count as f32).sqrt().ceil() as u32` (packer.rs `eval_atlas_size`);
agrees with the f32 computation for all unit counts below 2^24. -/
def ceilSqrt (n : Nat) : Nat :=
  (((List.range (n + 1)).find? fun s => decide (n ≤ s * s)).getD n)

/-- Smallest power of two not below `n`, with `nextPow2 0 = 1`, modelling
`u32::next_power_of_two`. -/
def nextPow2 (n : Nat) : Nat :=
  2 ^ (((List.range (n + 1)).find? fun k => decide (n ≤ 2 ^ k)).getD n)

/-- Descending width search of packer.rs `eval_atlas_size` (compact mode):
tries `width = w, w-1, ..., 1`, stops at the first height violating the
size limit, keeps the smallest area.  Sizes are in units, not pixels. -/
def compactLoop (ctx : Context) (unitsCount : Nat) : Nat → USize → USize
  | 0, size => size
  | w + 1, size =>
      let height := divCeil unitsCount (w + 1)
      if height * ctx.paddedUnitSize > ctx.sizeLimit then size
      else
        compactLoop ctx unitsCount w
          (if (w + 1) * height < size.width * size.height then ⟨w + 1, height⟩
           else size)

/-- Atlas pixel size (packer.rs `eval_atlas_size`). -/
def eval_atlas_size (ctx : Context) : USize :=
  let unitsCount := mapLen ctx.units
  let size := ceilSqrt unitsCount
  if ctx.pot then
    let s := nextPow2 (size * ctx.paddedUnitSize)
    ⟨s, s⟩
  else if ctx.square then
    ⟨size * ctx.paddedUnitSize, size * ctx.paddedUnitSize⟩
  else
    let fin := compactLoop ctx unitsCount size ⟨size, size⟩
    ⟨fin.width * ctx.paddedUnitSize, fin.height * ctx.paddedUnitSize⟩

/-- Indexed writes into a pixel buffer, applied left to right. -/
def writeSeq (ps : List (Nat × Pixel)) (buf : List Pixel) : List Pixel :=
  ps.foldl (fun b q => b.set q.1 q.2) buf

/-- Writes of one padded block at block cell `(column, row)` of an atlas of
pixel width `w`, in the row-major order of packer.rs `set_pixels`
(`from_idx` advances as `dy * pus + dx`, `into_idx = x + w * y`). -/
def blockWrites (pus : Nat) (block : List Pixel) (col row w : Nat) :
    List (Nat × Pixel) :=
  (List.range pus).flatMap fun dy =>
    (List.range pus).map fun dx =>
      ((row * pus + dy) * w + (col * pus + dx), block.getD (dy * pus + dx) tPix)

/-- Copies one padded block into the atlas buffer (packer.rs `set_pixels`).
Rust indexes `pixels[from_idx]`, which panics when the block is shorter than
`padded_unit_size²`; the dicer always produces blocks of exactly that
length, and the theorems below carry that as a hypothesis. -/
def set_pixels (pus : Nat) (block : List Pixel) (col row w : Nat)
    (buf : List Pixel) : List Pixel :=
  writeSeq (blockWrites pus block col row w) buf

/-- Resolves a `UnitRef` through `ctx.to_pack` (packer.rs `bake_atlas`,
`&ctx.to_pack[unit_ref.tex_idx].units[unit_ref.unit_idx]`). -/
def resolveUnit (ctx : Context) (r : UnitRef) : DicedUnit :=
  (ctx.toPack.getD r.texIdx dummyTex).units.getD r.unitIdx dummyUnit

/-- Canonical unit stored for a hash: map indexing `ctx.units[unit_hash]`. -/
def unitOf (ctx : Context) (h : Nat) : DicedUnit :=
  resolveUnit ctx ((alookup ctx.units h).getD ⟨0, 0⟩)

/-- Base UV rect of the non-padded interior (packer.rs `get_uv`). -/
def get_uv (ctx : Context) (col row : Nat) (atlasSize : USize) : FRect :=
  let width := qdiv (ctx.unitSize : ℚ) (atlasSize.width : ℚ)
  let height := qdiv (ctx.unitSize : ℚ) (atlasSize.height : ℚ)
  let x := qdiv ((col * ctx.paddedUnitSize + ctx.pad : Nat) : ℚ) (atlasSize.width : ℚ)
  let y := qdiv ((row * ctx.paddedUnitSize + ctx.pad : Nat) : ℚ) (atlasSize.height : ℚ)
  ⟨x, y, width, height⟩

/-- Symmetric UV inset derived from the rect width (packer.rs `inset_uv`). -/
def inset_uv (ctx : Context) (rect : FRect) : FRect :=
  let d := qmul ctx.inset (qdiv rect.width 2)
  let dx2 := qmul d 2
  ⟨qadd rect.x d, qadd rect.y d, qsub rect.width dx2, qsub rect.height dx2⟩

/-- Edge-crop UV scaling (packer.rs `scale_uv`). -/
def scale_uv (ctx : Context) (rect : FRect) (unit : DicedUnit) : FRect :=
  let mx := qdiv (unit.rect.width : ℚ) (ctx.unitSize : ℚ)
  let my := qdiv (unit.rect.height : ℚ) (ctx.unitSize : ℚ)
  ⟨rect.x, rect.y, qmul rect.width mx, qmul rect.height my⟩

/-- UV rect stored for the unit at sorted index `i` (packer.rs `bake_atlas`,
loop body: `get_uv`, then `inset_uv`, then `scale_uv`). -/
def rectAt (ctx : Context) (size : USize) (upr i : Nat) (h : Nat) : FRect :=
  scale_uv ctx (inset_uv ctx (get_uv ctx (i % upr) (i / upr) size)) (unitOf ctx h)

/-- Bakes the atlas texture and the hash-to-UV map (packer.rs `bake_atlas`).
The Rust loop fills the `HashMap` `rects` with one insert per distinct
sorted hash; the resulting map is represented as the association list in
insertion order. -/
def bake_atlas (ctx : Context) (size : USize) :
    Texture × List (Nat × FRect) :=
  let upr := size.width / ctx.paddedUnitSize
  let sorted := sortedKeys ctx.units
  let pixels := sorted.enum.foldl
    (fun buf p =>
      set_pixels ctx.paddedUnitSize (unitOf ctx p.2).pixels (p.1 % upr)
        (p.1 / upr) size.width buf)
    (List.replicate (size.width * size.height) tPix)
  let rects := sorted.enum.map fun p => (p.2, rectAt ctx size upr p.1 p.2)
  (⟨size.width, size.height, pixels⟩, rects)


/-- Pixels of the padded block cell `(column, row)` as read back from an
atlas buffer of pixel width `w`, in the write order of `set_pixels`. -/
def regionPixels (pus w : Nat) (buf : List Pixel) (col row : Nat) : List Pixel :=
  (List.range pus).flatMap fun dy =>
    (List.range pus).map fun dx =>
      buf.getD ((row * pus + dy) * w + (col * pus + dx)) tPix

/-- All buffer indices written while baking `n` blocks on an atlas of pixel
width `w` with `upr` block columns: block `i` goes to cell
`(i % upr, i / upr)` (packer.rs `bake_atlas` / `set_pixels`). -/
def atlasIdxs (pus w upr n : Nat) : List Nat :=
  (List.range n).flatMap fun i =>
    (List.range pus).flatMap fun dy =>
      (List.range pus).map fun dx =>
        ((i / upr) * pus + dy) * w + ((i % upr) * pus + dx)

/-- The full write list of the bake loop of packer.rs `bake_atlas`, one
block of writes per sorted distinct hash. -/
def bakeWrites (ctx : Context) (size : USize) : List (Nat × Pixel) :=
  (sortedKeys ctx.units).enum.flatMap fun p =>
    blockWrites ctx.paddedUnitSize (unitOf ctx p.2).pixels
      (p.1 % (size.width / ctx.paddedUnitSize))
      (p.1 / (size.width / ctx.paddedUnitSize)) size.width

/-- Rust `Vec::swap_remove(i)`: moves the last element into slot `i` and
shortens the vector by one (total model; call sites have `i` in bounds). -/
def swapRemove {α : Type} (l : List α) (i : Nat) : List α :=
  match l.getLast? with
  | none => l
  | some x => (l.set i x).dropLast

/-- One step of the extraction loop of packer.rs `extract_packed_textures`
at index `idx`. -/
def extractStep (packed : List Nat) (idx : Nat)
    (st : List DicedTexture × List DicedTexture) :
    List DicedTexture × List DicedTexture :=
  if idx ∈ packed then
    (swapRemove st.1 idx, st.2 ++ [st.1.getD idx dummyTex])
  else st

/-- Extraction loop of packer.rs `extract_packed_textures`, walking the
index down from `idx` to `0`; returns (remaining textures, extracted
textures in descending index order). -/
def extractLoop (packed : List Nat) :
    Nat → List DicedTexture × List DicedTexture →
    List DicedTexture × List DicedTexture
  | 0, st => extractStep packed 0 st
  | idx + 1, st => extractLoop packed idx (extractStep packed (idx + 1) st)

/-- Removes the packed textures from the pool (packer.rs
`extract_packed_textures`); starts at `to_pack.len() - 1`, which is in
bounds because the pool is nonempty at the call site. -/
def extract_packed_textures (ctx : Context) :
    List DicedTexture × List DicedTexture :=
  extractLoop ctx.packed (ctx.toPack.length - 1) (ctx.toPack, [])

/-- Atlas (models.rs `Atlas`), with the `rects` hash map as an association
list in bake insertion order. -/
structure Atlas where
  texture : Texture
  rects : List (Nat × FRect)
  packed : List DicedTexture
deriving DecidableEq, Repr

/-- Tail of packer.rs `pack_it` after the admission loop: the no-progress
guard, atlas baking and extraction of packed textures. -/
def packFinish (c1 : Context) : Except Err (Atlas × Context) :=
  if c1.packed.isEmpty then .error .cantFit
  else
    .ok (⟨(bake_atlas c1 (eval_atlas_size c1)).1,
          (bake_atlas c1 (eval_atlas_size c1)).2,
          (extract_packed_textures c1).2⟩,
         { c1 with toPack := (extract_packed_textures c1).1,
                   packed := [], units := [] })

/-- One packing round (packer.rs `pack_it`), returning the atlas and the
context for the next round (remaining pool, cleared per-atlas state; the
Rust caller clears `packed` and `units` right after the call). -/
def pack_it (ctx : Context) : Except Err (Atlas × Context) :=
  packFinish (packLoop ctx.toPack.length ctx)

/-- Outer packing loop of packer.rs `pack` (`while !ctx.to_pack.is_empty()`),
with fuel.  Every successful round removes at least one texture, so fuel
`diced.length + 1` never runs out (lemmas below). -/
def packRounds : Nat → Context → List Atlas → Except Err (List Atlas)
  | 0, _, acc => .ok acc
  | fuel + 1, ctx, acc =>
      if ctx.toPack.isEmpty then .ok acc
      else
        match pack_it ctx with
        | .error e => .error e
        | .ok r => packRounds fuel r.2 (acc ++ [r.1])

/-- Round-start contexts actually reached by the packing loop (the states
at which packer.rs `pack_it` is entered). -/
def roundStates : Nat → Context → List Context
  | 0, _ => []
  | fuel + 1, ctx =>
      if ctx.toPack.isEmpty then []
      else
        ctx :: (match pack_it ctx with
                | .error _ => []
                | .ok r => roundStates fuel r.2)

/-- Packs diced textures into atlases (packer.rs `pack`).  `none` models the
Rust division-by-zero abort in `new_ctx` when `unit_size + 2 * padding` is
zero on `u32` (reachable only for preferences that `dice` would already have
rejected); every returned value is `some` of the Rust `Result`. -/
def pack (diced : List DicedTexture) (prefs : Prefs) :
    Option (Except Err (List Atlas)) :=
  if prefs.uvInset > qHalf then some (.error .insetRange)
  else if prefs.atlasSizeLimit = 0 then some (.error .limitZero)
  else if prefs.unitSize > prefs.atlasSizeLimit then some (.error .unitAboveLimit)
  else if pusOf prefs = 0 then none
  else some (packRounds (diced.length + 1) (newCtx diced prefs) [])

end SD

deriving instance DecidableEq for Except

section DicerSanity

open SD

/-- Sample 2x2 RGBY texture used in the repository tests. -/
def rgbyTex : Texture :=
  ⟨2, 2, [⟨255,0,0,255⟩, ⟨0,255,0,255⟩, ⟨0,0,255,255⟩, ⟨255,255,0,255⟩]⟩

/-- Injective-enough demo hash for concrete evaluations. -/
def hashDemo (l : List Pixel) : Nat :=
  l.foldl (fun a p => ((a * 256 + p.r) * 256 + p.g) * 256 * 256 + p.b * 256 + p.a) 1

def pixR : Pixel := ⟨255, 0, 0, 255⟩
def pixG : Pixel := ⟨0, 255, 0, 255⟩
def pixB : Pixel := ⟨0, 0, 255, 255⟩
def pixY : Pixel := ⟨255, 255, 0, 255⟩
def pixC : Pixel := ⟨0, 255, 255, 255⟩
def pixM : Pixel := ⟨255, 0, 255, 255⟩

def prefs1 : Prefs := ⟨1, 0, 0, 2048, false, false⟩

def diceOf (tex : Texture) (prefs : Prefs) : List DicedTexture :=
  match dice hashDemo [⟨"t", tex, none⟩] prefs with
  | .ok l => l
  | .error _ => []

def rgbyC : List DicedTexture :=
  match dice hashDemo
      [⟨"rgby", ⟨2, 2, [pixR, pixG, pixB, pixY]⟩, none⟩,
       ⟨"c", ⟨1, 1, [pixC]⟩, none⟩] ⟨1, 0, 0, 4, false, false⟩ with
  | .ok l => l
  | .error _ => []

/-- Preferences for the duplicate-hash scenario: unit size 2, no padding. -/
def prefsC1 : Prefs := ⟨2, 0, 0, 4, false, false⟩

/-- Two diced textures whose sole units share a content hash: a 1x1 blue
texture (border-clamped to a 2x2 all-blue sample, edge-cropped rect 1x1)
and a 2x2 all-blue texture (full rect 2x2). -/
def dlC1 : List DicedTexture :=
  diceOf ⟨1, 1, [pixB]⟩ prefsC1 ++
    diceOf ⟨2, 2, [pixB, pixB, pixB, pixB]⟩ prefsC1

/-- The shared content hash of both units of `dlC1`. -/
def hB : Nat := hashDemo [pixB, pixB, pixB, pixB]

/-- Context with a negative uv_inset (-0.5). -/
def ctxNeg : Context := newCtx [] ⟨2, 0, Rat.divInt (-1) 2, 4, false, false⟩

/-- Preferences with negative uv_inset (-0.5), unit size 2, no padding. -/
def prefsNeg : Prefs := ⟨2, 0, Rat.divInt (-1) 2, 2048, false, false⟩

/-- A 1x1 blue texture diced with `prefsNeg`: one edge-cropped unit. -/
def dlNeg : List DicedTexture := diceOf ⟨1, 1, [pixB]⟩ prefsNeg

/-- First atlas of a successful pack, for concrete witnesses. -/
def firstAtlasOf (dl : List DicedTexture) (prefs : Prefs) : Atlas :=
  match pack dl prefs with
  | some (.ok (a :: _)) => a
  | _ => ⟨⟨0, 0, []⟩, [], []⟩


/-- Preferences for the pixel-coverage scenario: unit size 2, no padding. -/
def prefsC2 : Prefs := ⟨2, 0, 0, 2048, false, false⟩

/-- A single diced 2x2 texture with three blue pixels and one transparent
default pixel: its sole unit block contains a default pixel. -/
def dlC2 : List DicedTexture := diceOf ⟨2, 2, [pixB, pixB, pixB, tPix]⟩ prefsC2

/-- A single diced 1x1 blue texture. -/
def packedB : List DicedTexture := diceOf ⟨1, 1, [pixB]⟩ prefs1

/-- Minimal concrete packing context with one placed unit of hash 5. -/
def ctxW : Context :=
  { inset := 0, square := false, pot := false, sizeLimit := 4, unitSize := 1,
    pad := 0, paddedUnitSize := 1, unitCapacity := 16,
    toPack := [⟨"w", ⟨1, 1⟩, none, [⟨⟨0, 0, 1, 1⟩, [pixB], 5⟩], [5]⟩],
    packed := [0], units := [(5, ⟨0, 0⟩)] }

end DicerSanity

namespace SD


/-! ## Bridge lemmas for the executable rational operations -/

theorem qadd_eq (a b : ℚ) : qadd a b = a + b := by
  rw [qadd, Rat.divInt_eq_div]
  conv_rhs => rw [← Rat.num_div_den a, ← Rat.num_div_den b]
  have ha : ((a.den : ℚ)) ≠ 0 := by exact_mod_cast a.den_nz
  have hb : ((b.den : ℚ)) ≠ 0 := by exact_mod_cast b.den_nz
  field_simp

theorem qsub_eq (a b : ℚ) : qsub a b = a - b := by
  rw [qsub, Rat.divInt_eq_div]
  conv_rhs => rw [← Rat.num_div_den a, ← Rat.num_div_den b]
  have ha : ((a.den : ℚ)) ≠ 0 := by exact_mod_cast a.den_nz
  have hb : ((b.den : ℚ)) ≠ 0 := by exact_mod_cast b.den_nz
  field_simp
  ring

theorem qmul_eq (a b : ℚ) : qmul a b = a * b := by
  rw [qmul, Rat.divInt_eq_div]
  conv_rhs => rw [← Rat.num_div_den a, ← Rat.num_div_den b]
  have ha : ((a.den : ℚ)) ≠ 0 := by exact_mod_cast a.den_nz
  have hb : ((b.den : ℚ)) ≠ 0 := by exact_mod_cast b.den_nz
  field_simp

theorem qdiv_eq (a b : ℚ) : qdiv a b = a / b := by
  rcases eq_or_ne b 0 with hb0 | hb0
  · subst hb0
    simp [qdiv]
  · rw [qdiv, Rat.divInt_eq_div]
    conv_rhs => rw [← Rat.num_div_den a, ← Rat.num_div_den b]
    have ha : ((a.den : ℚ)) ≠ 0 := by exact_mod_cast a.den_nz
    have hb : ((b.den : ℚ)) ≠ 0 := by exact_mod_cast b.den_nz
    have hbn : ((b.num : ℚ)) ≠ 0 := by simpa using Rat.num_ne_zero.mpr hb0
    field_simp

theorem qHalf_eq : qHalf = (1 / 2 : ℚ) := by
  rw [qHalf, Rat.divInt_eq_div]; norm_num

/-! ## Dicer lemmas -/

theorem divCeil_zero_left {b : Nat} : divCeil 0 b = 0 := by
  unfold divCeil
  match b with
  | 0 => rfl
  | k + 1 => exact Nat.div_eq_of_lt (by omega)

/-- Units of a zero-area sprite: the grid is empty, so no cell is visited
and no pixel is sampled. -/
theorem diceUnits_zero_area (hashFn : List Pixel → Nat) (ctx : DCtx)
    (hz : ctx.sprite.texture.width = 0 ∨ ctx.sprite.texture.height = 0) :
    diceUnits hashFn ctx = [] := by
  unfold diceUnits
  rcases hz with h | h
  · rw [h, divCeil_zero_left]
    simp
  · rw [h, divCeil_zero_left]
    simp

/-- The hash stored by `dice_at` does not depend on the padding and is the
hash of the non-padded sample. -/
theorem dice_at_hash_indep (hashFn : List Pixel → Nat) (x y : Nat)
    (S p1 p2 : Nat) (s : SourceSprite) :
    (dice_at hashFn x y ⟨S, p1, s⟩).map (·.hash)
      = (dice_at hashFn x y ⟨S, p2, s⟩).map (·.hash) := by
  unfold dice_at
  dsimp only
  split <;> rfl

theorem diceUnits_hash_indep (hashFn : List Pixel → Nat)
    (S p1 p2 : Nat) (s : SourceSprite) :
    (diceUnits hashFn ⟨S, p1, s⟩).map (·.hash)
      = (diceUnits hashFn ⟨S, p2, s⟩).map (·.hash) := by
  unfold diceUnits
  dsimp only
  rw [List.map_flatMap, List.map_flatMap]
  congr 1
  funext x
  rw [List.map_filterMap, List.map_filterMap]
  congr 1
  funext y
  exact dice_at_hash_indep hashFn x y S p1 p2 s

/-! ## Association-list map lemmas -/

theorem alookup_append {β : Type} (l1 l2 : List (Nat × β)) (k : Nat) :
    alookup (l1 ++ l2) k = (alookup l1 k).or (alookup l2 k) := by
  induction l1 with
  | nil => simp [alookup]
  | cons p l ih =>
    by_cases h : p.1 = k <;> simp [alookup, h, ih]

theorem alookup_mapReplace {β : Type} (m : List (Nat × β)) (k : Nat) (v : β) :
    alookup (m.map fun p => if p.1 = k then (k, v) else p) k
      = (alookup m k).map (fun _ => v) := by
  induction m with
  | nil => rfl
  | cons p l ih =>
    by_cases h : p.1 = k
    · simp [alookup, h]
    · simp [alookup, h, ih]

theorem alookup_mapReplace_ne {β : Type} (m : List (Nat × β)) (k : Nat) (v : β)
    (k2 : Nat) (hne : k2 ≠ k) :
    alookup (m.map fun p => if p.1 = k then (k, v) else p) k2 = alookup m k2 := by
  have hkk : ¬k = k2 := fun hh => hne hh.symm
  induction m with
  | nil => rfl
  | cons p l ih =>
    by_cases h : p.1 = k
    · have hp : ¬p.1 = k2 := by rw [h]; exact hkk
      simp [alookup, h, hp, hne, hkk, ih]
    · by_cases h2 : p.1 = k2 <;> simp [alookup, h, h2, hne, hkk, ih]

theorem alookup_insertAL_self {β : Type} (m : List (Nat × β)) (k : Nat) (v : β) :
    alookup (insertAL m k v) k = some v := by
  unfold insertAL
  split_ifs with h
  · rw [alookup_mapReplace]
    obtain ⟨x, hx⟩ := Option.isSome_iff_exists.mp h
    rw [hx]
    rfl
  · rw [alookup_append]
    rw [Option.not_isSome_iff_eq_none.mp h]
    simp [alookup]

theorem alookup_insertAL_ne {β : Type} (m : List (Nat × β)) (k : Nat) (v : β)
    (k2 : Nat) (hne : k2 ≠ k) :
    alookup (insertAL m k v) k2 = alookup m k2 := by
  unfold insertAL
  split_ifs with h
  · exact alookup_mapReplace_ne m k v k2 hne
  · rw [alookup_append]
    have hkk : ¬k = k2 := fun hh => hne hh.symm
    have h1 : alookup [(k, v)] k2 = none := by simp [alookup, hkk]
    rw [h1, Option.or_none]

theorem alookup_extendAL {β : Type} (refs m : List (Nat × β)) (k : Nat) :
    alookup (extendAL m refs) k = (alookup refs.reverse k).or (alookup m k) := by
  induction refs generalizing m with
  | nil => simp [extendAL, alookup]
  | cons r rest ih =>
    have hstep : extendAL m (r :: rest) = extendAL (insertAL m r.1 r.2) rest := rfl
    rw [hstep, ih, List.reverse_cons, alookup_append]
    by_cases hk : k = r.1
    · subst hk
      rw [alookup_insertAL_self]
      have h1 : alookup [r] r.1 = some r.2 := by simp [alookup]
      rw [h1]
      cases alookup rest.reverse r.1 <;> rfl
    · rw [alookup_insertAL_ne _ _ _ _ hk]
      have hrk : ¬r.1 = k := fun hh => hk hh.symm
      have h1 : alookup [r] k = none := by simp [alookup, hrk]
      rw [h1, Option.or_none]

/-! ## Packer error lemmas -/

theorem packFinish_error_eq (c1 : Context) (e : Err)
    (h : packFinish c1 = .error e) : e = .cantFit := by
  unfold packFinish at h
  split_ifs at h
  injection h with h2
  exact h2.symm

theorem pack_it_error_eq (ctx : Context) (e : Err)
    (h : pack_it ctx = .error e) : e = .cantFit :=
  packFinish_error_eq _ _ h

theorem packRounds_error_eq (fuel : Nat) (ctx : Context) (acc : List Atlas)
    (e : Err) (h : packRounds fuel ctx acc = .error e) : e = .cantFit := by
  induction fuel generalizing ctx acc with
  | zero => cases h
  | succ f ih =>
    unfold packRounds at h
    by_cases hemp : ctx.toPack.isEmpty
    · rw [if_pos hemp] at h
      exact Except.noConfusion h
    · rw [if_neg hemp] at h
      cases hm : pack_it ctx with
      | error e2 =>
        simp only [hm] at h
        injection h with h2
        rw [← h2]
        exact pack_it_error_eq _ _ hm
      | ok r =>
        simp only [hm] at h
        exact ih _ _ h

/-! ## Elementary list index lemmas -/

theorem getD_set_ne {α : Type} (l : List α) (i j : Nat) (v d : α) (h : i ≠ j) :
    (l.set i v).getD j d = l.getD j d := by
  induction l generalizing i j with
  | nil => rfl
  | cons a t ih =>
    cases i with
    | zero =>
      cases j with
      | zero => exact absurd rfl h
      | succ jj => rfl
    | succ ii =>
      cases j with
      | zero => rfl
      | succ jj => exact ih ii jj (fun hh => h (by rw [hh]))

theorem getD_set_self {α : Type} (l : List α) (i : Nat) (v d : α)
    (h : i < l.length) : (l.set i v).getD i d = v := by
  induction l generalizing i with
  | nil => exact absurd h (Nat.not_lt_zero i)
  | cons a t ih =>
    cases i with
    | zero => rfl
    | succ ii => exact ih ii (by simpa using h)

theorem getD_dropLast {α : Type} (l : List α) (j : Nat) (d : α)
    (h : j + 1 < l.length) : l.dropLast.getD j d = l.getD j d := by
  induction l generalizing j with
  | nil => simp at h
  | cons a t ih =>
    cases t with
    | nil => simp at h
    | cons b t2 =>
      cases j with
      | zero => rfl
      | succ jj => exact ih jj (by simpa using h)

/-! ## swapRemove lemmas -/

theorem swapRemove_length {α : Type} (l : List α) (i : Nat) (h : l ≠ []) :
    (swapRemove l i).length = l.length - 1 := by
  unfold swapRemove
  cases hl : l.getLast? with
  | none => exact absurd (List.getLast?_eq_none_iff.mp hl) h
  | some x => rw [List.length_dropLast, List.length_set]

theorem swapRemove_prefix {α : Type} (l : List α) (i j : Nat) (d : α)
    (hj : j < i) (hi : i < l.length) :
    (swapRemove l i).getD j d = l.getD j d := by
  unfold swapRemove
  cases hl : l.getLast? with
  | none => rfl
  | some x =>
    rw [getD_dropLast _ _ _ (by rw [List.length_set]; omega)]
    exact getD_set_ne _ _ _ _ _ (by omega)

theorem swapRemove_subset {α : Type} (l : List α) (i : Nat) :
    ∀ x ∈ swapRemove l i, x ∈ l := by
  unfold swapRemove
  cases hl : l.getLast? with
  | none => exact fun x hx => hx
  | some v =>
    intro x hx
    have hx2 : x ∈ l.set i v := (List.dropLast_sublist _).subset hx
    rcases List.mem_or_eq_of_mem_set hx2 with h | h
    · exact h
    · rw [h]
      exact List.mem_of_mem_getLast? (by rw [hl]; rfl)

/-! ## Extraction loop characterization -/

theorem extractStep_spec (packed : List Nat) (idx : Nat)
    (tp acc : List DicedTexture) (hidx : idx < tp.length) :
    (extractStep packed idx (tp, acc)).2
      = acc ++ (if idx ∈ packed then [tp.getD idx dummyTex] else []) ∧
    (extractStep packed idx (tp, acc)).1.length
      = tp.length - (if idx ∈ packed then 1 else 0) ∧
    (∀ j, j < idx → (extractStep packed idx (tp, acc)).1.getD j dummyTex
      = tp.getD j dummyTex) ∧
    (∀ x ∈ (extractStep packed idx (tp, acc)).1, x ∈ tp) := by
  unfold extractStep
  dsimp only
  split_ifs with hmem
  · refine ⟨rfl, ?_, ?_, ?_⟩
    · rw [swapRemove_length tp idx (by intro hh; rw [hh] at hidx; simp at hidx)]
    · intro j hj
      exact swapRemove_prefix _ _ _ _ hj hidx
    · exact swapRemove_subset _ _
  · exact ⟨by simp, by simp, fun j _ => rfl, fun x hx => hx⟩

theorem extractLoop_spec (packed : List Nat) :
    ∀ (idx : Nat) (tp acc : List DicedTexture), idx < tp.length →
    (extractLoop packed idx (tp, acc)).2
      = acc ++ (((List.range (idx + 1)).reverse).filter (· ∈ packed)).map
          (fun j => tp.getD j dummyTex) ∧
    (extractLoop packed idx (tp, acc)).1.length
      = tp.length - ((List.range (idx + 1)).filter (· ∈ packed)).length ∧
    (∀ x ∈ (extractLoop packed idx (tp, acc)).1, x ∈ tp) := by
  intro idx
  induction idx with
  | zero =>
    intro tp acc h0
    have hs := extractStep_spec packed 0 tp acc h0
    simp only [extractLoop]
    have hr1 : List.range 1 = [0] := rfl
    refine ⟨?_, ?_, hs.2.2.2⟩
    · rw [hs.1]
      by_cases hm : 0 ∈ packed <;>
        simp [hr1, List.filter_cons, hm]
    · rw [hs.2.1]
      by_cases hm : 0 ∈ packed <;>
        simp [hr1, List.filter_cons, hm]
  | succ idx ih =>
    intro tp acc h1
    have hs := extractStep_spec packed (idx + 1) tp acc h1
    simp only [extractLoop]
    obtain ⟨tp2, acc2, hpair⟩ :
        ∃ a b, extractStep packed (idx + 1) (tp, acc) = (a, b) :=
      ⟨_, _, rfl⟩
    rw [hpair]
    rw [hpair] at hs
    dsimp only at hs
    have hlen2 : idx < tp2.length := by
      rw [hs.2.1]
      by_cases hm : (idx + 1) ∈ packed <;> simp only [hm, if_true, if_false] <;>
        omega
    have hih := ih tp2 acc2 hlen2
    have hpre : ∀ j ∈ (((List.range (idx + 1)).reverse).filter (· ∈ packed)),
        tp2.getD j dummyTex = tp.getD j dummyTex := by
      intro j hj
      have hj2 : j ∈ (List.range (idx + 1)).reverse := (List.mem_filter.mp hj).1
      have hj3 : j < idx + 1 := by
        rw [List.mem_reverse] at hj2
        exact List.mem_range.mp hj2
      exact hs.2.2.1 j hj3
    have hrange : (List.range (idx + 1 + 1)).reverse
        = (idx + 1) :: (List.range (idx + 1)).reverse := by
      rw [List.range_succ, List.reverse_append]
      rfl
    have hle : ((List.range (idx + 1)).filter (· ∈ packed)).length ≤ idx + 1 := by
      calc ((List.range (idx + 1)).filter (· ∈ packed)).length
          ≤ (List.range (idx + 1)).length := List.length_filter_le _ _
        _ = idx + 1 := List.length_range _
    have hcount : ((List.range (idx + 1 + 1)).filter (· ∈ packed)).length
        = ((List.range (idx + 1)).filter (· ∈ packed)).length
          + (if (idx + 1) ∈ packed then 1 else 0) := by
      rw [List.range_succ, List.filter_append, List.length_append]
      by_cases hm : (idx + 1) ∈ packed <;>
        simp [List.filter_cons, hm]
    refine ⟨?_, ?_, ?_⟩
    · rw [hih.1, hrange]
      by_cases hm : (idx + 1) ∈ packed
      · rw [hs.1, if_pos hm,
          List.filter_cons_of_pos (by simpa using hm), List.map_cons,
          List.map_congr_left hpre,
          List.append_assoc, List.singleton_append]
      · rw [hs.1, if_neg hm,
          List.filter_cons_of_neg (by simpa using hm),
          List.map_congr_left hpre, List.append_nil]
    · rw [hih.2.1, hs.2.1, hcount]
      by_cases hm : (idx + 1) ∈ packed <;>
        simp only [hm, if_true, if_false] <;> omega
    · intro x hx
      exact hs.2.2.2 x (hih.2.2 x hx)

theorem extract_spec (c : Context) (hne : c.toPack ≠ []) :
    (extract_packed_textures c).2
      = (((List.range c.toPack.length).reverse).filter (· ∈ c.packed)).map
          (fun j => c.toPack.getD j dummyTex) ∧
    (extract_packed_textures c).1.length
      = c.toPack.length
        - ((List.range c.toPack.length).filter (· ∈ c.packed)).length ∧
    (∀ x ∈ (extract_packed_textures c).1, x ∈ c.toPack) := by
  have hlen : 0 < c.toPack.length := List.length_pos.mpr hne
  have h := extractLoop_spec c.packed (c.toPack.length - 1) c.toPack [] (by omega)
  rw [show c.toPack.length - 1 + 1 = c.toPack.length from by omega] at h
  unfold extract_packed_textures
  rw [h.1]
  exact ⟨by simp, h.2.1, h.2.2⟩

/-! ## Unit-map key lemmas -/

theorem alookup_isSome_iff_mem {β : Type} (l : List (Nat × β)) (k : Nat) :
    (alookup l k).isSome ↔ k ∈ l.map Prod.fst := by
  induction l with
  | nil => simp [alookup]
  | cons p t ih =>
    by_cases h : p.1 = k
    · simp [alookup, h]
    · have hne : ¬k = p.1 := fun hh => h hh.symm
      simp [alookup, h, hne, ih]

theorem unitEntries_fst (ctx : Context) (i : Nat) :
    (unitEntries ctx i).map Prod.fst
      = (ctx.toPack.getD i dummyTex).units.map (·.hash) := by
  unfold unitEntries
  rw [List.map_map]
  rw [show (Prod.fst ∘ fun p : Nat × DicedUnit =>
      ((p.2.hash, (⟨i, p.1⟩ : UnitRef)) : Nat × UnitRef))
    = (fun u : DicedUnit => u.hash) ∘ Prod.snd from rfl]
  rw [← List.map_map, List.enum_map_snd]

theorem extendAL_isSome_mono {β : Type} (m refs : List (Nat × β)) (k : Nat)
    (h : (alookup m k).isSome) : (alookup (extendAL m refs) k).isSome := by
  rw [alookup_extendAL]
  cases hr : alookup refs.reverse k with
  | none => simpa [Option.or] using h
  | some v => simp [Option.or]

theorem extendAL_isSome_new {β : Type} (m refs : List (Nat × β)) (k : Nat)
    (h : k ∈ refs.map Prod.fst) : (alookup (extendAL m refs) k).isSome := by
  rw [alookup_extendAL]
  have h2 : (alookup refs.reverse k).isSome := by
    rw [alookup_isSome_iff_mem, List.map_reverse, List.mem_reverse]
    exact h
  obtain ⟨v, hv⟩ := Option.isSome_iff_exists.mp h2
  rw [hv]
  rfl

theorem mem_sortedKeys {β : Type} (m : List (Nat × β)) (k : Nat) :
    k ∈ sortedKeys m ↔ k ∈ m.map Prod.fst := by
  unfold sortedKeys
  rw [(List.perm_insertionSort _ _).mem_iff, List.mem_dedup]

theorem bake_rects_fst (ctx : Context) (size : USize) :
    (bake_atlas ctx size).2.map Prod.fst = sortedKeys ctx.units := by
  show ((sortedKeys ctx.units).enum.map _).map Prod.fst = _
  rw [List.map_map]
  rw [show (Prod.fst ∘ fun p : Nat × Nat =>
      ((p.2, rectAt ctx size (size.width / ctx.paddedUnitSize) p.1 p.2)
        : Nat × FRect)) = Prod.snd from rfl]
  exact List.enum_map_snd _

/-! ## Admission loop lemmas -/

theorem findStep_fold_some (ctx : Context) :
    ∀ (l : List (Nat × DicedTexture)) (acc : Option Nat × Nat) (j : Nat),
    (l.foldl (findStep ctx) acc).1 = some j →
    acc.1 = some j ∨ (j ∈ l.map Prod.fst ∧ j ∉ ctx.packed) := by
  intro l
  induction l with
  | nil => exact fun acc j h => Or.inl h
  | cons p t ih =>
    intro acc j h
    rw [List.foldl_cons] at h
    rcases ih _ j h with h2 | h2
    · unfold findStep at h2
      split_ifs at h2 with hp hc
      · exact Or.inl h2
      · dsimp only at h2
        injection h2 with h3
        refine Or.inr ⟨?_, ?_⟩
        · rw [← h3]
          exact List.mem_cons_self _ _
        · rw [← h3]
          exact hp
      · exact Or.inl h2
    · exact Or.inr ⟨List.mem_cons_of_mem _ h2.1, h2.2⟩

theorem find_some_spec (ctx : Context) (i : Nat)
    (h : find_packable_texture ctx = some i) :
    i ∉ ctx.packed ∧ i < ctx.toPack.length := by
  unfold find_packable_texture at h
  cases hr : ctx.toPack.enum.foldl (findStep ctx) (none, u32Max) with
  | mk o m =>
    rw [hr] at h
    cases o with
    | none => exact Option.noConfusion (by dsimp only at h; exact h)
    | some j =>
      dsimp only at h
      split_ifs at h
      injection h with h2
      have h3 := findStep_fold_some ctx _ _ j (by rw [hr])
      rcases h3 with h3 | h3
      · exact Option.noConfusion h3
      · rw [← h2]
        refine ⟨h3.2, ?_⟩
        have h4 : j ∈ List.range ctx.toPack.length := by
          rw [← List.enum_map_fst ctx.toPack]
          exact h3.1
        exact List.mem_range.mp h4

theorem packLoop_shape : ∀ (f : Nat) (c : Context), ∃ p u,
    packLoop f c = { c with packed := p, units := u } := by
  intro f
  induction f with
  | zero => exact fun c => ⟨c.packed, c.units, rfl⟩
  | succ f ih =>
    intro c
    cases hf : find_packable_texture c with
    | none => exact ⟨c.packed, c.units, by simp only [packLoop, hf]⟩
    | some i =>
      obtain ⟨p, u, hs⟩ := ih (admitTex c i)
      exact ⟨p, u, by simp only [packLoop, hf]; exact hs⟩

theorem packLoop_toPack (f : Nat) (c : Context) :
    (packLoop f c).toPack = c.toPack := by
  obtain ⟨p, u, hs⟩ := packLoop_shape f c
  rw [hs]

/-- Loop invariant of the admission loop: recorded indices are fresh and in
bounds, and every unit hash of an admitted texture is a key of the unit
pool. -/
def LoopInv (c : Context) : Prop :=
  c.packed.Nodup ∧ (∀ i ∈ c.packed, i < c.toPack.length) ∧
  ∀ i ∈ c.packed, ∀ u ∈ (c.toPack.getD i dummyTex).units,
    (alookup c.units u.hash).isSome

theorem admitTex_inv (c : Context) (i : Nat) (hinv : LoopInv c)
    (hi : i ∉ c.packed) (hlt : i < c.toPack.length) : LoopInv (admitTex c i) := by
  obtain ⟨hnd, hbound, hmap⟩ := hinv
  refine ⟨List.nodup_cons.mpr ⟨hi, hnd⟩, ?_, ?_⟩
  · intro j hj
    rcases List.mem_cons.mp hj with rfl | hj2
    · exact hlt
    · exact hbound j hj2
  · intro j hj u hu
    rcases List.mem_cons.mp hj with rfl | hj2
    · apply extendAL_isSome_new
      rw [unitEntries_fst]
      exact List.mem_map_of_mem _ hu
    · exact extendAL_isSome_mono _ _ _ (hmap j hj2 u hu)

theorem packLoop_inv : ∀ (f : Nat) (c : Context),
    LoopInv c → LoopInv (packLoop f c) := by
  intro f
  induction f with
  | zero => exact fun c h => h
  | succ f ih =>
    intro c h
    cases hf : find_packable_texture c with
    | none => simpa only [packLoop, hf] using h
    | some i =>
      simp only [packLoop, hf]
      obtain ⟨hnp, hlt⟩ := find_some_spec c i hf
      exact ih _ (admitTex_inv c i h hnp hlt)

/-! ## Selection-fold characterization (fresh round) -/

theorem foldl_min_le_init : ∀ (l : List Nat) (a : Nat), l.foldl min a ≤ a := by
  intro l
  induction l with
  | nil => exact fun a => le_refl a
  | cons x t ih =>
    intro a
    calc (x :: t).foldl min a = t.foldl min (min a x) := List.foldl_cons _ _
      _ ≤ min a x := ih _
      _ ≤ a := min_le_left _ _

theorem foldl_min_le_iff (cap : Nat) : ∀ (l : List Nat) (a : Nat),
    l.foldl min a ≤ cap ↔ (a ≤ cap ∨ ∃ c ∈ l, c ≤ cap) := by
  intro l
  induction l with
  | nil => simp
  | cons x t ih =>
    intro a
    rw [List.foldl_cons, ih, min_le_iff]
    constructor
    · rintro (⟨h | h⟩ | ⟨c, hc, hcle⟩)
      · exact Or.inl h
      · exact Or.inr ⟨x, List.mem_cons_self _ _, h⟩
      · exact Or.inr ⟨c, List.mem_cons_of_mem _ hc, hcle⟩
    · rintro (h | ⟨c, hc, hcle⟩)
      · exact Or.inl (Or.inl h)
      · rcases List.mem_cons.mp hc with rfl | hc2
        · exact Or.inl (Or.inr hcle)
        · exact Or.inr ⟨c, hc2, hcle⟩

theorem findStep_snd_fresh (ctx : Context) (hp : ctx.packed = [])
    (acc : Option Nat × Nat) (p : Nat × DicedTexture) :
    (findStep ctx acc p).2 = min acc.2 (countNew ctx p.2) := by
  unfold findStep
  rw [hp]
  simp only [List.not_mem_nil, if_false]
  by_cases hc : countNew ctx p.2 < acc.2
  · rw [if_pos hc]
    dsimp only
    omega
  · rw [if_neg hc]
    omega

theorem findFold_min (ctx : Context) (hp : ctx.packed = []) :
    ∀ (l : List (Nat × DicedTexture)) (acc : Option Nat × Nat),
    ((l.foldl (findStep ctx) acc).2)
      = (l.map (fun p => countNew ctx p.2)).foldl min acc.2 := by
  intro l
  induction l with
  | nil => exact fun acc => rfl
  | cons p t ih =>
    intro acc
    rw [List.foldl_cons, List.map_cons, List.foldl_cons, ih,
      findStep_snd_fresh ctx hp]

theorem findFold_isSome_mono (ctx : Context) :
    ∀ (l : List (Nat × DicedTexture)) (acc : Option Nat × Nat),
    acc.1.isSome → ((l.foldl (findStep ctx) acc).1).isSome := by
  intro l
  induction l with
  | nil => exact fun acc h => h
  | cons p t ih =>
    intro acc h
    rw [List.foldl_cons]
    apply ih
    unfold findStep
    split_ifs <;> simp [h]

theorem findFold_isSome (ctx : Context) (hp : ctx.packed = []) :
    ∀ (l : List (Nat × DicedTexture)) (acc : Option Nat × Nat),
    (∃ p ∈ l, countNew ctx p.2 < acc.2) →
    ((l.foldl (findStep ctx) acc).1).isSome := by
  intro l
  induction l with
  | nil => rintro acc ⟨p, hp2, _⟩; cases hp2
  | cons p t ih =>
    rintro acc ⟨q, hq, hlt⟩
    rw [List.foldl_cons]
    by_cases hcp : countNew ctx p.2 < acc.2
    · apply findFold_isSome_mono
      unfold findStep
      rw [hp]
      simp only [List.not_mem_nil, if_false, if_pos hcp]
      rfl
    · have hstep : findStep ctx acc p = acc := by
        unfold findStep
        rw [hp]
        simp only [List.not_mem_nil, if_false, if_neg hcp]
      rw [hstep]
      rcases List.mem_cons.mp hq with rfl | hq2
      · exact absurd hlt hcp
      · exact ih acc ⟨q, hq2, hlt⟩

theorem countNew_fresh (ctx : Context) (hu : ctx.units = [])
    (t : DicedTexture) (hb : t.unique.length < u32Max) :
    countNew ctx t = t.unique.length := by
  unfold countNew
  rw [hu]
  have hf : t.unique.filter (fun u => (alookup ([] : UnitMap) u).isNone)
      = t.unique := by
    apply List.filter_eq_self.mpr
    intro a _
    rfl
  rw [hf, Nat.mod_eq_of_lt]
  have : u32Max < U32 := by unfold u32Max U32; omega
  omega

theorem mem_toPack_of_mem_enum {l : List DicedTexture}
    {p : Nat × DicedTexture} (h : p ∈ l.enum) : p.2 ∈ l := by
  have h2 := List.mem_map_of_mem Prod.snd h
  rwa [List.enum_map_snd] at h2

theorem find_fresh_none_iff (ctx : Context) (hp : ctx.packed = [])
    (hu : ctx.units = []) (hne : ctx.toPack ≠ [])
    (hcnt : ∀ t ∈ ctx.toPack, t.unique.length < u32Max) :
    (find_packable_texture ctx = none ↔
      ∀ t ∈ ctx.toPack, ctx.unitCapacity < t.unique.length) := by
  have hcfresh : ∀ t ∈ ctx.toPack, countNew ctx t = t.unique.length :=
    fun t ht => countNew_fresh ctx hu t (hcnt t ht)
  have hmap : ctx.toPack.enum.map (fun p => countNew ctx p.2)
      = ctx.toPack.map (fun t => countNew ctx t) := by
    rw [show (fun p : Nat × DicedTexture => countNew ctx p.2)
      = (fun t => countNew ctx t) ∘ Prod.snd from rfl, ← List.map_map,
      List.enum_map_snd]
  cases hr : ctx.toPack.enum.foldl (findStep ctx) (none, u32Max) with
  | mk o m =>
    have hm : m = (ctx.toPack.map (fun t => countNew ctx t)).foldl min u32Max := by
      have h2 := findFold_min ctx hp ctx.toPack.enum (none, u32Max)
      rw [hr] at h2
      dsimp only at h2
      rw [hmap] at h2
      exact h2
    have ho : o.isSome := by
      have hth : ctx.toPack.enum ≠ [] := by
        intro hh
        have h3 := congrArg List.length hh
        rw [List.enum_length] at h3
        exact hne (List.length_eq_zero.mp h3)
      obtain ⟨p0, hp0⟩ := List.exists_mem_of_ne_nil _ hth
      have hp02 : p0.2 ∈ ctx.toPack := mem_toPack_of_mem_enum hp0
      have h4 := findFold_isSome ctx hp ctx.toPack.enum (none, u32Max)
        ⟨p0, hp0, by rw [hcfresh _ hp02]; exact hcnt _ hp02⟩
      rw [hr] at h4
      exact h4
    obtain ⟨j, hj⟩ := Option.isSome_iff_exists.mp ho
    subst hj
    unfold find_packable_texture
    rw [hr]
    dsimp only
    have hmle : m ≤ u32Max := by
      rw [hm]
      exact foldl_min_le_init _ _
    have hmlt : m < U32 := by
      have : u32Max < U32 := by unfold u32Max U32; omega
      omega
    have hml0 : mapLen ctx.units = 0 := by rw [hu]; rfl
    rw [hml0]
    have hmod : (0 % U32 + m) % U32 = m := by
      rw [Nat.zero_mod, Nat.zero_add, Nat.mod_eq_of_lt hmlt]
    rw [hmod]
    by_cases hle : m ≤ ctx.unitCapacity
    · rw [if_pos hle]
      constructor
      · intro hh
        exact Option.noConfusion hh
      · intro hall
        exfalso
        rw [hm, foldl_min_le_iff] at hle
        rcases hle with hle | ⟨cv, hcv, hcle⟩
        · obtain ⟨t0, ht0⟩ := List.exists_mem_of_ne_nil _ hne
          have h1 := hall t0 ht0
          have h2 := hcnt t0 ht0
          omega
        · obtain ⟨t1, ht1, hcv2⟩ := List.mem_map.mp hcv
          have h1 := hall t1 ht1
          rw [hcfresh t1 ht1] at hcv2
          omega
    · rw [if_neg hle]
      constructor
      · intro _ t ht
        by_contra hc2
        push_neg at hc2
        apply hle
        rw [hm, foldl_min_le_iff]
        exact Or.inr ⟨countNew ctx t, List.mem_map_of_mem _ ht,
          by rw [hcfresh t ht]; exact hc2⟩
      · intro _
        rfl

/-! ## Per-round and per-run packing lemmas -/

theorem pack_it_ok_spec (ctx : Context) (r : Atlas × Context)
    (h : pack_it ctx = .ok r) :
    ¬(packLoop ctx.toPack.length ctx).packed.isEmpty = true ∧
    r.1.rects = (bake_atlas (packLoop ctx.toPack.length ctx)
        (eval_atlas_size (packLoop ctx.toPack.length ctx))).2 ∧
    r.1.packed = (extract_packed_textures (packLoop ctx.toPack.length ctx)).2 ∧
    r.2.toPack = (extract_packed_textures (packLoop ctx.toPack.length ctx)).1 ∧
    r.2.packed = [] ∧ r.2.units = [] ∧
    r.2.unitCapacity = ctx.unitCapacity := by
  unfold pack_it packFinish at h
  split_ifs at h with hc
  injection h with h2
  rw [← h2]
  refine ⟨hc, rfl, rfl, rfl, rfl, rfl, ?_⟩
  obtain ⟨p, u, hs⟩ := packLoop_shape ctx.toPack.length ctx
  rw [hs]

theorem round_atlas_ok (ctx : Context) (r : Atlas × Context)
    (hp : ctx.packed = []) (hne : ctx.toPack ≠ [])
    (h : pack_it ctx = .ok r) :
    ∀ t ∈ r.1.packed, ∀ u ∈ t.units, (alookup r.1.rects u.hash).isSome := by
  obtain ⟨hc, hrects, hpacked, _, _, _, _⟩ := pack_it_ok_spec ctx r h
  have hinv : LoopInv (packLoop ctx.toPack.length ctx) := by
    apply packLoop_inv
    refine ⟨by rw [hp]; exact List.nodup_nil, ?_, ?_⟩
    · intro i hi
      rw [hp] at hi
      cases hi
    · intro i hi
      rw [hp] at hi
      cases hi
  have htp : (packLoop ctx.toPack.length ctx).toPack = ctx.toPack :=
    packLoop_toPack _ _
  intro t ht u hu
  rw [hpacked,
    (extract_spec (packLoop ctx.toPack.length ctx) (by rw [htp]; exact hne)).1]
      at ht
  obtain ⟨j, hj, rfl⟩ := List.mem_map.mp ht
  have hjp : j ∈ (packLoop ctx.toPack.length ctx).packed := by
    simpa using (List.mem_filter.mp hj).2
  have hsome := hinv.2.2 j hjp u hu
  rw [hrects]
  rw [alookup_isSome_iff_mem] at hsome ⊢
  rw [bake_rects_fst, mem_sortedKeys]
  exact hsome

theorem packRounds_atlas_prop (P : Atlas → Prop)
    (hP : ∀ ctx r, ctx.packed = [] → ctx.toPack ≠ [] →
      pack_it ctx = .ok r → P r.1) :
    ∀ (fuel : Nat) (ctx : Context) (acc atlases : List Atlas),
      ctx.packed = [] → (∀ a ∈ acc, P a) →
      packRounds fuel ctx acc = .ok atlases → ∀ a ∈ atlases, P a := by
  intro fuel
  induction fuel with
  | zero =>
    intro ctx acc atlases hp hacc h
    injection h with h2
    rw [← h2]
    exact hacc
  | succ f ih =>
    intro ctx acc atlases hp hacc h
    unfold packRounds at h
    split_ifs at h with hemp
    · injection h with h2
      rw [← h2]
      exact hacc
    · cases hm : pack_it ctx with
      | error e =>
        simp only [hm] at h
        exact Except.noConfusion h
      | ok r =>
        simp only [hm] at h
        have hne : ctx.toPack ≠ [] := by
          intro hh
          rw [hh] at hemp
          exact hemp rfl
        have hPr : P r.1 := hP ctx r hp hne hm
        refine ih r.2 (acc ++ [r.1]) atlases
          (pack_it_ok_spec _ _ hm).2.2.2.2.1 ?_ h
        intro a ha
        rcases List.mem_append.mp ha with h1 | h1
        · exact hacc a h1
        · rw [List.mem_singleton.mp h1]
          exact hPr

theorem pack_error_inset_iff (diced : List DicedTexture) (prefs : Prefs) :
    pack diced prefs = some (.error .insetRange) ↔
      (1 / 2 : ℚ) < prefs.uvInset := by
  unfold pack
  split_ifs with h1 h2 h3 h4 <;> rw [qHalf_eq] at h1
  · exact iff_of_true rfl h1
  · exact iff_of_false (by simp) h1
  · exact iff_of_false (by simp) h1
  · exact iff_of_false (by simp) h1
  · refine iff_of_false (fun h => ?_) h1
    exact Err.noConfusion (packRounds_error_eq _ _ _ _ (Option.some_injective _ h))

theorem pack_error_limit_iff (diced : List DicedTexture) (prefs : Prefs) :
    pack diced prefs = some (.error .limitZero) ↔
      (prefs.uvInset ≤ 1 / 2 ∧ prefs.atlasSizeLimit = 0) := by
  unfold pack
  split_ifs with h1 h2 h3 h4 <;> rw [qHalf_eq] at h1
  · exact iff_of_false (by simp) (fun hh => absurd hh.1 (not_le.mpr h1))
  · exact iff_of_true rfl ⟨not_lt.mp h1, h2⟩
  · exact iff_of_false (by simp) (fun hh => h2 hh.2)
  · exact iff_of_false (by simp) (fun hh => h2 hh.2)
  · refine iff_of_false (fun h => ?_) (fun hh => h2 hh.2)
    exact Err.noConfusion (packRounds_error_eq _ _ _ _ (Option.some_injective _ h))

theorem pack_error_unit_iff (diced : List DicedTexture) (prefs : Prefs) :
    pack diced prefs = some (.error .unitAboveLimit) ↔
      (prefs.uvInset ≤ 1 / 2 ∧ prefs.atlasSizeLimit ≠ 0 ∧
        prefs.atlasSizeLimit < prefs.unitSize) := by
  unfold pack
  split_ifs with h1 h2 h3 h4 <;> rw [qHalf_eq] at h1
  · exact iff_of_false (by simp) (fun hh => absurd hh.1 (not_le.mpr h1))
  · exact iff_of_false (by simp) (fun hh => hh.2.1 h2)
  · exact iff_of_true rfl ⟨not_lt.mp h1, h2, h3⟩
  · exact iff_of_false (by simp) (fun hh => h3 hh.2.2)
  · refine iff_of_false (fun h => ?_) (fun hh => h3 hh.2.2)
    exact Err.noConfusion (packRounds_error_eq _ _ _ _ (Option.some_injective _ h))

theorem pack_empty_ok (prefs : Prefs) (hin : prefs.uvInset ≤ 1 / 2)
    (hlim : prefs.atlasSizeLimit ≠ 0) (hsz : prefs.unitSize ≤ prefs.atlasSizeLimit)
    (hpus : pusOf prefs ≠ 0) : pack [] prefs = some (.ok []) := by
  unfold pack
  rw [if_neg (by rw [qHalf_eq]; exact not_lt.mpr hin), if_neg hlim,
      if_neg (not_lt.mpr hsz), if_neg hpus]
  rfl

/-! ## Round-level lemmas for the cant-fit characterization -/

theorem packLoop_succ_none (f : Nat) (c : Context)
    (h : find_packable_texture c = none) : packLoop (f + 1) c = c := by
  simp only [packLoop, h]

theorem packLoop_succ_some (f : Nat) (c : Context) (i : Nat)
    (h : find_packable_texture c = some i) :
    packLoop (f + 1) c = packLoop f (admitTex c i) := by
  simp only [packLoop, h]

theorem packLoop_packed_mono : ∀ (f : Nat) (c : Context) (j : Nat),
    j ∈ c.packed → j ∈ (packLoop f c).packed := by
  intro f
  induction f with
  | zero => exact fun c j h => h
  | succ f ih =>
    intro c j h
    cases hf : find_packable_texture c with
    | none => rw [packLoop_succ_none f c hf]; exact h
    | some i =>
      rw [packLoop_succ_some f c i hf]
      exact ih _ _ (List.mem_cons_of_mem _ h)

theorem pack_it_error_iff (ctx : Context) (hp : ctx.packed = [])
    (hne : ctx.toPack ≠ []) :
    ((∃ e, pack_it ctx = .error e) ↔ find_packable_texture ctx = none) := by
  cases hlen : ctx.toPack.length with
  | zero => exact absurd (List.length_eq_zero.mp hlen) hne
  | succ k =>
    unfold pack_it
    rw [hlen]
    cases hf : find_packable_texture ctx with
    | none =>
      rw [packLoop_succ_none k ctx hf]
      refine iff_of_true ⟨.cantFit, ?_⟩ rfl
      unfold packFinish
      rw [hp]
      rfl
    | some i =>
      rw [packLoop_succ_some k ctx i hf]
      have hmem : i ∈ (packLoop k (admitTex ctx i)).packed :=
        packLoop_packed_mono k (admitTex ctx i) i (List.mem_cons_self _ _)
      have hnemp : ¬(packLoop k (admitTex ctx i)).packed.isEmpty = true := by
        intro hh
        rw [List.isEmpty_iff] at hh
        rw [hh] at hmem
        cases hmem
      refine iff_of_false ?_ (by intro hh; exact Option.noConfusion hh)
      rintro ⟨e, he⟩
      unfold packFinish at he
      rw [if_neg hnemp] at he
      exact Except.noConfusion he

theorem pack_it_ok_decrease (ctx : Context) (r : Atlas × Context)
    (hp : ctx.packed = []) (hne : ctx.toPack ≠ [])
    (h : pack_it ctx = .ok r) : r.2.toPack.length < ctx.toPack.length := by
  obtain ⟨hc, _, _, htp, _, _, _⟩ := pack_it_ok_spec ctx r h
  have htpc : (packLoop ctx.toPack.length ctx).toPack = ctx.toPack :=
    packLoop_toPack _ _
  have hnec : (packLoop ctx.toPack.length ctx).toPack ≠ [] := by
    rw [htpc]
    exact hne
  have hspec := extract_spec _ hnec
  have hinv : LoopInv (packLoop ctx.toPack.length ctx) := by
    apply packLoop_inv
    refine ⟨by rw [hp]; exact List.nodup_nil, ?_, ?_⟩
    · intro i hi
      rw [hp] at hi
      cases hi
    · intro i hi
      rw [hp] at hi
      cases hi
  have hpne : (packLoop ctx.toPack.length ctx).packed ≠ [] := by
    intro hh
    apply hc
    rw [hh]
    rfl
  obtain ⟨j, hj⟩ := List.exists_mem_of_ne_nil _ hpne
  have hjlt : j < (packLoop ctx.toPack.length ctx).toPack.length :=
    hinv.2.1 j hj
  have hjf : j ∈ (List.range (packLoop ctx.toPack.length ctx).toPack.length).filter
      (· ∈ (packLoop ctx.toPack.length ctx).packed) :=
    List.mem_filter.mpr ⟨List.mem_range.mpr hjlt, by simpa using hj⟩
  have hcnt1 : 0 < ((List.range (packLoop ctx.toPack.length ctx).toPack.length).filter
      (· ∈ (packLoop ctx.toPack.length ctx).packed)).length :=
    List.length_pos.mpr (List.ne_nil_of_mem hjf)
  have hlenpos : 0 < ctx.toPack.length := List.length_pos.mpr hne
  rw [htp, hspec.2.1, htpc]
  rw [htpc] at hjlt hcnt1
  omega

theorem roundStates_capacity : ∀ (fuel : Nat) (c c2 : Context),
    c2 ∈ roundStates fuel c → c2.unitCapacity = c.unitCapacity := by
  intro fuel
  induction fuel with
  | zero =>
    intro c c2 h
    cases h
  | succ f ih =>
    intro c c2 h
    unfold roundStates at h
    split_ifs at h with hemp
    · cases h
    rcases List.mem_cons.mp h with rfl | h2
    · rfl
    · cases hm : pack_it c with
      | error e =>
        rw [hm] at h2
        cases h2
      | ok r =>
        rw [hm] at h2
        rw [ih r.2 c2 h2, (pack_it_ok_spec _ _ hm).2.2.2.2.2.2]

/-- Capacities-exceed condition at a round start: every remaining texture
has more unique hashes than the atlas unit capacity. -/
def allOver (c : Context) : Prop :=
  ∀ t ∈ c.toPack, c.unitCapacity < t.unique.length

theorem packRounds_cantFit_iff :
    ∀ (fuel : Nat) (c : Context) (acc : List Atlas),
      c.packed = [] → c.units = [] → c.toPack.length < fuel →
      (∀ t ∈ c.toPack, t.unique.length < u32Max) →
      ((packRounds fuel c acc = .error .cantFit ↔
        ∃ c2 ∈ roundStates fuel c, allOver c2) ∧
       ((¬ ∃ c2 ∈ roundStates fuel c, allOver c2) →
         ∃ l, packRounds fuel c acc = .ok l)) := by
  intro fuel
  induction fuel with
  | zero =>
    intro c acc _ _ hlt _
    omega
  | succ f ih =>
    intro c acc hp hu hlt hcnt
    by_cases hemp : c.toPack.isEmpty
    · rw [show packRounds (f + 1) c acc = .ok acc from by
        unfold packRounds; rw [if_pos hemp],
        show roundStates (f + 1) c = [] from by
        unfold roundStates; rw [if_pos hemp]]
      exact ⟨iff_of_false (by simp) (by simp), fun _ => ⟨acc, rfl⟩⟩
    · have hne : c.toPack ≠ [] := fun hh => hemp (by rw [hh]; rfl)
      by_cases hover : allOver c
      · have hfind : find_packable_texture c = none :=
          (find_fresh_none_iff c hp hu hne hcnt).mpr hover
        obtain ⟨e, he⟩ := (pack_it_error_iff c hp hne).mpr hfind
        have he2 : pack_it c = .error .cantFit := by
          rw [he, pack_it_error_eq _ _ he]
        have hr1 : packRounds (f + 1) c acc = .error .cantFit := by
          unfold packRounds
          rw [if_neg hemp]
          simp only [he2]
        have hs1 : roundStates (f + 1) c = [c] := by
          unfold roundStates
          rw [if_neg hemp]
          simp only [he2]
        rw [hr1, hs1]
        constructor
        · exact iff_of_true rfl ⟨c, List.mem_cons_self _ _, hover⟩
        · intro hno
          exact absurd ⟨c, List.mem_cons_self _ _, hover⟩ hno
      · have hfind : find_packable_texture c ≠ none := by
          intro hh
          exact hover ((find_fresh_none_iff c hp hu hne hcnt).mp hh)
        cases hm : pack_it c with
        | error e =>
          exact absurd ((pack_it_error_iff c hp hne).mp ⟨e, hm⟩) hfind
        | ok r =>
          have hspec := pack_it_ok_spec _ _ hm
          have hcnt2 : ∀ t ∈ r.2.toPack, t.unique.length < u32Max := by
            intro t ht
            rw [hspec.2.2.2.1] at ht
            have hsub := (extract_spec (packLoop c.toPack.length c)
              (by rw [packLoop_toPack]; exact hne)).2.2 t ht
            rw [packLoop_toPack] at hsub
            exact hcnt t hsub
          have hdec := pack_it_ok_decrease c r hp hne hm
          have hih := ih r.2 (acc ++ [r.1]) hspec.2.2.2.2.1 hspec.2.2.2.2.2.1
            (by omega) hcnt2
          have hr1 : packRounds (f + 1) c acc
              = packRounds f r.2 (acc ++ [r.1]) := by
            simp only [packRounds]
            rw [if_neg hemp]
            simp only [hm]
          have hs1 : roundStates (f + 1) c = c :: roundStates f r.2 := by
            simp only [roundStates]
            rw [if_neg hemp]
            simp only [hm]
          rw [hr1, hs1]
          constructor
          · rw [hih.1]
            constructor
            · rintro ⟨c2, hc2, hc2o⟩
              exact ⟨c2, List.mem_cons_of_mem _ hc2, hc2o⟩
            · rintro ⟨c2, hc2, hc2o⟩
              rcases List.mem_cons.mp hc2 with rfl | hc2m
              · exact absurd hc2o hover
              · exact ⟨c2, hc2m, hc2o⟩
          · intro hno
            apply hih.2
            rintro ⟨c2, hc2, hc2o⟩
            exact hno ⟨c2, List.mem_cons_of_mem _ hc2, hc2o⟩


/-! ## Write-sequence lemmas -/

theorem writeSeq_nil (buf : List Pixel) : writeSeq [] buf = buf := rfl

theorem writeSeq_cons (q : Nat × Pixel) (t : List (Nat × Pixel))
    (buf : List Pixel) : writeSeq (q :: t) buf = writeSeq t (buf.set q.1 q.2) :=
  rfl

theorem writeSeq_append (l1 l2 : List (Nat × Pixel)) (buf : List Pixel) :
    writeSeq (l1 ++ l2) buf = writeSeq l2 (writeSeq l1 buf) :=
  List.foldl_append _ _ _ _

theorem writeSeq_length : ∀ (ps : List (Nat × Pixel)) (buf : List Pixel),
    (writeSeq ps buf).length = buf.length := by
  intro ps
  induction ps with
  | nil => intro buf; rfl
  | cons q t ih => intro buf; rw [writeSeq_cons, ih, List.length_set]

theorem writeSeq_getD_not_mem :
    ∀ (ps : List (Nat × Pixel)) (buf : List Pixel) (p : Nat),
    p ∉ ps.map Prod.fst → (writeSeq ps buf).getD p tPix = buf.getD p tPix := by
  intro ps
  induction ps with
  | nil => intro buf p _; rfl
  | cons q t ih =>
    intro buf p hp
    rw [List.map_cons] at hp
    have h1 : p ≠ q.1 := fun hh => hp (by rw [hh]; exact List.mem_cons_self _ _)
    have h2 : p ∉ t.map Prod.fst := fun hh => hp (List.mem_cons_of_mem _ hh)
    rw [writeSeq_cons, ih _ _ h2, getD_set_ne _ _ _ _ _ (fun hh => h1 hh.symm)]

theorem writeSeq_getD_mem :
    ∀ (ps : List (Nat × Pixel)) (buf : List Pixel) (k : Nat) (v : Pixel),
    (ps.map Prod.fst).Nodup → (k, v) ∈ ps → k < buf.length →
    (writeSeq ps buf).getD k tPix = v := by
  intro ps
  induction ps with
  | nil => intro buf k v _ hm _; cases hm
  | cons q t ih =>
    intro buf k v hnd hm hk
    rw [List.map_cons, List.nodup_cons] at hnd
    rw [writeSeq_cons]
    rcases List.mem_cons.mp hm with rfl | hmt
    · rw [writeSeq_getD_not_mem t _ k hnd.1, getD_set_self _ _ _ _ hk]
    · exact ih _ k v hnd.2 hmt (by rw [List.length_set]; exact hk)

theorem countP_set (P : Pixel → Bool) :
    ∀ (l : List Pixel) (k : Nat) (v : Pixel), k < l.length →
    (l.set k v).countP P + (if P (l.getD k tPix) then 1 else 0)
      = l.countP P + (if P v then 1 else 0) := by
  intro l
  induction l with
  | nil => intro k v hk; simp at hk
  | cons a t ih =>
    intro k v hk
    cases k with
    | zero =>
      rw [List.set_cons_zero, List.getD_cons_zero, List.countP_cons,
        List.countP_cons]
      split_ifs <;> omega
    | succ k2 =>
      rw [List.set_cons_succ, List.getD_cons_succ, List.countP_cons,
        List.countP_cons]
      have hk2 : k2 < t.length := by simpa using hk
      have h2 := ih k2 v hk2
      split_ifs at h2 ⊢ <;> omega

theorem writeSeq_countP (P : Pixel → Bool) :
    ∀ (ps : List (Nat × Pixel)) (buf : List Pixel),
    (ps.map Prod.fst).Nodup → (∀ q ∈ ps, q.1 < buf.length) →
    (∀ q ∈ ps, P (buf.getD q.1 tPix) = false) →
    (writeSeq ps buf).countP P = buf.countP P + ps.countP (fun q => P q.2) := by
  intro ps
  induction ps with
  | nil => intro buf _ _ _; simp [writeSeq]
  | cons q t ih =>
    intro buf hnd hlen hfresh
    rw [List.map_cons, List.nodup_cons] at hnd
    rw [writeSeq_cons, List.countP_cons]
    have hq1 : q.1 < buf.length := hlen q (List.mem_cons_self _ _)
    have hlen2 : ∀ r ∈ t, r.1 < (buf.set q.1 q.2).length := by
      intro r hr
      rw [List.length_set]
      exact hlen r (List.mem_cons_of_mem _ hr)
    have hfresh2 : ∀ r ∈ t, P ((buf.set q.1 q.2).getD r.1 tPix) = false := by
      intro r hr
      have hne : r.1 ≠ q.1 := by
        intro hh
        apply hnd.1
        rw [← hh]
        exact List.mem_map_of_mem Prod.fst hr
      rw [getD_set_ne _ _ _ _ _ (fun hh => hne hh.symm)]
      exact hfresh r (List.mem_cons_of_mem _ hr)
    rw [ih (buf.set q.1 q.2) hnd.2 hlen2 hfresh2]
    have hset := countP_set P buf q.1 q.2 hq1
    have hf : P (buf.getD q.1 tPix) = false := hfresh q (List.mem_cons_self _ _)
    rw [hf] at hset
    simp only [Bool.false_eq_true, if_false] at hset
    split_ifs at hset ⊢ <;> omega

theorem getD_replicate : ∀ (n p : Nat),
    (List.replicate n tPix).getD p tPix = tPix := by
  intro n
  induction n with
  | zero => intro p; rfl
  | succ m ih =>
    intro p
    cases p with
    | zero => rfl
    | succ p2 => exact ih p2

theorem countP_replicate_tPix (P : Pixel → Bool) (hP : P tPix = false) :
    ∀ n, (List.replicate n tPix).countP P = 0 := by
  intro n
  induction n with
  | zero => rfl
  | succ m ih => simp [List.replicate_succ, List.countP_cons, ih, hP]

/-! ## Nodup and congruence helpers -/

theorem nodup_flatMap_of {α β : Type} :
    ∀ (l : List α) (f : α → List β), l.Nodup → (∀ a ∈ l, (f a).Nodup) →
    (∀ a ∈ l, ∀ b ∈ l, a ≠ b → ∀ x ∈ f a, x ∉ f b) →
    (l.flatMap f).Nodup := by
  intro l f
  induction l with
  | nil => intro _ _ _; exact List.nodup_nil
  | cons a t ih =>
    intro hl hf hdisj
    rw [List.nodup_cons] at hl
    rw [List.flatMap_cons]
    apply List.Nodup.append
    · exact hf a (List.mem_cons_self _ _)
    · exact ih hl.2 (fun b hb => hf b (List.mem_cons_of_mem _ hb))
        (fun b hb c hc hbc => hdisj b (List.mem_cons_of_mem _ hb) c
          (List.mem_cons_of_mem _ hc) hbc)
    · intro x hx1 hx2
      rw [List.mem_flatMap] at hx2
      obtain ⟨b, hb, hxb⟩ := hx2
      have hab : a ≠ b := fun hh => hl.1 (hh ▸ hb)
      exact hdisj a (List.mem_cons_self _ _) b (List.mem_cons_of_mem _ hb) hab
        x hx1 hxb

theorem flatMap_congr_mem {α β : Type} : ∀ (l : List α) (f g : α → List β),
    (∀ a ∈ l, f a = g a) → l.flatMap f = l.flatMap g := by
  intro l f g
  induction l with
  | nil => intro _; rfl
  | cons a t ih =>
    intro h
    rw [List.flatMap_cons, List.flatMap_cons, h a (List.mem_cons_self _ _),
      ih (fun b hb => h b (List.mem_cons_of_mem _ hb))]

/-! ## Index arithmetic of the block grid -/

theorem decomp_unique (W a b a2 b2 : Nat) (hb : b < W) (hb2 : b2 < W)
    (h : a * W + b = a2 * W + b2) : a = a2 ∧ b = b2 := by
  have hW : 0 < W := by omega
  have h1 : (a * W + b) % W = b := by
    rw [Nat.add_comm, Nat.mul_comm, Nat.add_mul_mod_self_left,
      Nat.mod_eq_of_lt hb]
  have h2 : (a2 * W + b2) % W = b2 := by
    rw [Nat.add_comm, Nat.mul_comm, Nat.add_mul_mod_self_left,
      Nat.mod_eq_of_lt hb2]
  have hbb : b = b2 := by rw [← h1, ← h2, h]
  refine ⟨?_, hbb⟩
  have h3 : a * W = a2 * W := by omega
  exact Nat.eq_of_mul_eq_mul_right hW h3

theorem idx_lt (w h y x : Nat) (hy : y < h) (hx : x < w) :
    y * w + x < w * h := by
  have h1 : (y + 1) * w ≤ h * w := Nat.mul_le_mul_right _ (by omega)
  rw [Nat.add_mul] at h1
  have h2 : h * w = w * h := Nat.mul_comm _ _
  omega

theorem cell_bounds (pus w h n i upr hU : Nat) (hpus : 0 < pus)
    (hupr : upr = w / pus) (hhU : hU = h / pus)
    (hfit : n ≤ upr * hU) (hi : i < n) :
    (i % upr) * pus + (pus - 1) < w ∧
    (i / upr) * pus + (pus - 1) < h := by
  have hupr0 : 0 < upr := by
    rcases Nat.eq_zero_or_pos upr with h0 | h0
    · rw [h0, Nat.zero_mul] at hfit
      omega
    · exact h0
  have hU0 : 0 < hU := by
    rcases Nat.eq_zero_or_pos hU with h0 | h0
    · rw [h0, Nat.mul_zero] at hfit
      omega
    · exact h0
  constructor
  · have hcol : i % upr < upr := Nat.mod_lt _ hupr0
    have h3 : upr * pus ≤ w := by
      rw [hupr]
      exact Nat.div_mul_le_self w pus
    generalize hg : i % upr = col at hcol ⊢
    have h2 : (col + 1) * pus ≤ upr * pus := Nat.mul_le_mul_right _ (by omega)
    rw [Nat.add_mul] at h2
    omega
  · have hrow : i / upr < hU := by
      rw [Nat.div_lt_iff_lt_mul hupr0]
      calc i < n := hi
        _ ≤ upr * hU := hfit
        _ = hU * upr := Nat.mul_comm _ _
    have h3 : hU * pus ≤ h := by
      rw [hhU]
      exact Nat.div_mul_le_self h pus
    generalize hg : i / upr = row at hrow ⊢
    have h2 : (row + 1) * pus ≤ hU * pus := Nat.mul_le_mul_right _ (by omega)
    rw [Nat.add_mul] at h2
    omega

/-! ## Range re-indexing -/

theorem range_map_getD {α β : Type} (d : α) (F : α → β) : ∀ (l : List α),
    (List.range l.length).map (fun i => F (l.getD i d)) = l.map F := by
  intro l
  induction l with
  | nil => rfl
  | cons a t ih =>
    rw [List.length_cons, List.range_succ_eq_map, List.map_cons, List.map_map,
      List.map_cons]
    exact congrArg (List.cons (F a)) ih

theorem map_getD_range : ∀ (l : List Pixel),
    (List.range l.length).map (fun k => l.getD k tPix) = l := by
  intro l
  have h := range_map_getD tPix id l
  rwa [List.map_id] at h

theorem flatMap_range_getD : ∀ (n m : Nat) (l : List Pixel),
    l.length = n * m →
    (List.range n).flatMap
      (fun dy => (List.range m).map fun dx => l.getD (dy * m + dx) tPix) = l := by
  have hre : ∀ (n m : Nat) (l : List Pixel),
      (List.range n).flatMap
        (fun dy => (List.range m).map fun dx => l.getD (dy * m + dx) tPix)
        = (List.range (n * m)).map fun k => l.getD k tPix := by
    intro n
    induction n with
    | zero =>
      intro m l
      rw [Nat.zero_mul]
      rfl
    | succ n2 ih =>
      intro m l
      rw [List.range_succ, List.flatMap_append, ih, List.flatMap_cons,
        List.flatMap_nil, List.append_nil, Nat.succ_mul, List.range_add,
        List.map_append, List.map_map]
      rfl
  intro n m l hl
  rw [hre, ← hl, map_getD_range]

/-! ## Atlas index-set lemmas -/

theorem mem_atlasIdxs (pus w upr n p : Nat) :
    p ∈ atlasIdxs pus w upr n ↔ ∃ i < n, ∃ dy < pus, ∃ dx < pus,
      p = ((i / upr) * pus + dy) * w + ((i % upr) * pus + dx) := by
  unfold atlasIdxs
  simp only [List.mem_flatMap, List.mem_map, List.mem_range]
  constructor
  · rintro ⟨i, hi, dy, hdy, dx, hdx, he⟩
    exact ⟨i, hi, dy, hdy, dx, hdx, he.symm⟩
  · rintro ⟨i, hi, dy, hdy, dx, hdx, he⟩
    exact ⟨i, hi, dy, hdy, dx, hdx, he.symm⟩

theorem atlasIdxs_nodup (pus w h upr hU n : Nat) (hpus : 0 < pus)
    (hupr : upr = w / pus) (hhU : hU = h / pus) (hfit : n ≤ upr * hU) :
    (atlasIdxs pus w upr n).Nodup := by
  unfold atlasIdxs
  apply nodup_flatMap_of
  · exact List.nodup_range _
  · intro i hi
    rw [List.mem_range] at hi
    have hb := cell_bounds pus w h n i upr hU hpus hupr hhU hfit hi
    apply nodup_flatMap_of
    · exact List.nodup_range _
    · intro dy hdy
      apply List.Nodup.map_on ?_ (List.nodup_range _)
      intro dx1 h1 dx2 h2 heq
      exact Nat.add_left_cancel (Nat.add_left_cancel heq)
    · intro dy1 h1 dy2 h2 hne x hx1 hx2
      rw [List.mem_map] at hx1 hx2
      obtain ⟨dx1, hdx1, he1⟩ := hx1
      obtain ⟨dx2, hdx2, he2⟩ := hx2
      rw [List.mem_range] at h1 h2 hdx1 hdx2
      have hXb1 : (i % upr) * pus + dx1 < w := by omega
      have hXb2 : (i % upr) * pus + dx2 < w := by omega
      have hd := decomp_unique w ((i / upr) * pus + dy1) ((i % upr) * pus + dx1)
        ((i / upr) * pus + dy2) ((i % upr) * pus + dx2) hXb1 hXb2
        (he1.trans he2.symm)
      exact hne (Nat.add_left_cancel hd.1)
  · intro i1 hi1 i2 hi2 hne x hx1 hx2
    rw [List.mem_range] at hi1 hi2
    rw [List.mem_flatMap] at hx1 hx2
    obtain ⟨dy1, hdy1m, hx1⟩ := hx1
    obtain ⟨dy2, hdy2m, hx2⟩ := hx2
    rw [List.mem_map] at hx1 hx2
    obtain ⟨dx1, hdx1, he1⟩ := hx1
    obtain ⟨dx2, hdx2, he2⟩ := hx2
    rw [List.mem_range] at hdy1m hdy2m hdx1 hdx2
    have hb1 := cell_bounds pus w h n i1 upr hU hpus hupr hhU hfit hi1
    have hb2 := cell_bounds pus w h n i2 upr hU hpus hupr hhU hfit hi2
    have hXb1 : (i1 % upr) * pus + dx1 < w := by omega
    have hXb2 : (i2 % upr) * pus + dx2 < w := by omega
    have hd := decomp_unique w ((i1 / upr) * pus + dy1) ((i1 % upr) * pus + dx1)
      ((i2 / upr) * pus + dy2) ((i2 % upr) * pus + dx2) hXb1 hXb2
      (he1.trans he2.symm)
    have hrw := decomp_unique pus (i1 / upr) dy1 (i2 / upr) dy2 hdy1m hdy2m hd.1
    have hcl := decomp_unique pus (i1 % upr) dx1 (i2 % upr) dx2 hdx1 hdx2 hd.2
    apply hne
    have e1 := Nat.div_add_mod i1 upr
    have e2 := Nat.div_add_mod i2 upr
    rw [hrw.1, hcl.1] at e1
    omega

/-! ## Bake write-list lemmas -/

theorem foldl_writeSeq_flatMap {α : Type} :
    ∀ (l : List α) (f : α → List (Nat × Pixel)) (buf : List Pixel),
    l.foldl (fun b x => writeSeq (f x) b) buf = writeSeq (l.flatMap f) buf := by
  intro l f
  induction l with
  | nil => intro buf; rfl
  | cons a t ih =>
    intro buf
    rw [List.foldl_cons, List.flatMap_cons, writeSeq_append]
    exact ih _

theorem blockWrites_fst (pus : Nat) (block : List Pixel) (col row w : Nat) :
    (blockWrites pus block col row w).map Prod.fst
      = (List.range pus).flatMap (fun dy => (List.range pus).map
          (fun dx => (row * pus + dy) * w + (col * pus + dx))) := by
  unfold blockWrites
  rw [List.map_flatMap]
  simp only [List.map_map]
  rfl

theorem countP_flatMap {α β : Type} (Q : β → Bool) :
    ∀ (l : List α) (f : α → List β),
    (l.flatMap f).countP Q = (l.map fun a => (f a).countP Q).sum := by
  intro l f
  induction l with
  | nil => rfl
  | cons a t ih =>
    rw [List.flatMap_cons, List.countP_append, List.map_cons, List.sum_cons, ih]

theorem blockWrites_countP (Q : Pixel → Bool) (pus : Nat) (block : List Pixel)
    (col row w : Nat) (hb : block.length = pus * pus) :
    (blockWrites pus block col row w).countP (fun q => Q q.2)
      = block.countP Q := by
  have h1 : (blockWrites pus block col row w).map Prod.snd
      = (List.range pus).flatMap
          (fun dy => (List.range pus).map fun dx =>
            block.getD (dy * pus + dx) tPix) := by
    unfold blockWrites
    rw [List.map_flatMap]
    simp only [List.map_map]
    rfl
  have h2 : (blockWrites pus block col row w).countP (fun q => Q q.2)
      = ((blockWrites pus block col row w).map Prod.snd).countP Q :=
    (List.countP_map _ _ _).symm
  rw [h2, h1, flatMap_range_getD pus pus block hb]

theorem sum_le_card_mul : ∀ (l : List Nat) (B : Nat),
    (∀ x ∈ l, x ≤ B) → l.sum ≤ l.length * B := by
  intro l B
  induction l with
  | nil => intro _; simp
  | cons a t ih =>
    intro h
    rw [List.sum_cons, List.length_cons]
    have h1 := h a (List.mem_cons_self _ _)
    have h2 := ih (fun x hx => h x (List.mem_cons_of_mem _ hx))
    have h3 : (t.length + 1) * B = t.length * B + B := Nat.succ_mul _ _
    omega

theorem getD_mem_of_lt {α : Type} (l : List α) (n : Nat) (d : α)
    (h : n < l.length) : l.getD n d ∈ l := by
  rw [List.getD_eq_getElem _ _ h]
  exact List.getElem_mem h

theorem enum_getD_mem {l : List Nat} {i : Nat} (hi : i < l.length) :
    (i, l.getD i 0) ∈ l.enum := by
  have hlen : i < l.enum.length := by
    rw [List.enum_length]
    exact hi
  have he : l.enum[i] = (i, l[i]) := List.getElem_enum _ _ hlen
  have hmem : l.enum[i] ∈ l.enum := List.getElem_mem hlen
  rw [he] at hmem
  rw [List.getD_eq_getElem l 0 hi]
  exact hmem

/-! ## Atlas size lemmas -/

theorem divCeil_mul_ge (N w : Nat) (hw : 0 < w) : N ≤ divCeil N w * w := by
  unfold divCeil
  have hdm := Nat.div_add_mod (N + w - 1) w
  have hr : (N + w - 1) % w < w := Nat.mod_lt _ hw
  have hc : ((N + w - 1) / w) * w = w * ((N + w - 1) / w) := Nat.mul_comm _ _
  omega

theorem sortedKeys_length {β : Type} (m : List (Nat × β)) :
    (sortedKeys m).length = mapLen m := by
  unfold sortedKeys mapLen
  exact (List.perm_insertionSort _ _).length_eq

theorem ceilSqrt_spec (n : Nat) : n ≤ ceilSqrt n * ceilSqrt n := by
  unfold ceilSqrt
  cases hf : (List.range (n + 1)).find? (fun s => decide (n ≤ s * s)) with
  | none =>
    exfalso
    have hmem : n ∈ List.range (n + 1) := List.mem_range.mpr (by omega)
    have h2 := List.find?_eq_none.mp hf n hmem
    apply h2
    rw [decide_eq_true_iff]
    rcases Nat.eq_zero_or_pos n with h0 | h0
    · omega
    · calc n = n * 1 := (Nat.mul_one n).symm
        _ ≤ n * n := Nat.mul_le_mul_left n h0
  | some s =>
    have h2 := List.find?_some hf
    rw [decide_eq_true_iff] at h2
    simpa using h2

theorem nextPow2_ge (n : Nat) : n ≤ nextPow2 n := by
  unfold nextPow2
  cases hf : (List.range (n + 1)).find? (fun k => decide (n ≤ 2 ^ k)) with
  | none =>
    exfalso
    have hmem : n ∈ List.range (n + 1) := List.mem_range.mpr (by omega)
    have h2 := List.find?_eq_none.mp hf n hmem
    apply h2
    rw [decide_eq_true_iff]
    exact Nat.le_of_lt (Nat.lt_two_pow n)
  | some k =>
    have h2 := List.find?_some hf
    rw [decide_eq_true_iff] at h2
    simpa using h2

theorem compactLoop_area (ctx : Context) (N : Nat) :
    ∀ (w : Nat) (size : USize), N ≤ size.width * size.height →
      N ≤ (compactLoop ctx N w size).width * (compactLoop ctx N w size).height := by
  intro w
  induction w with
  | zero => intro size h; exact h
  | succ w2 ih =>
    intro size h
    simp only [compactLoop]
    split_ifs with h1 h2
    · exact h
    · apply ih
      have h3 := divCeil_mul_ge N (w2 + 1) (by omega)
      calc N ≤ divCeil N (w2 + 1) * (w2 + 1) := h3
        _ = (w2 + 1) * divCeil N (w2 + 1) := Nat.mul_comm _ _
    · exact ih size h

theorem eval_atlas_size_fit (ctx : Context) (hpus : 0 < ctx.paddedUnitSize) :
    mapLen ctx.units ≤ ((eval_atlas_size ctx).width / ctx.paddedUnitSize)
      * ((eval_atlas_size ctx).height / ctx.paddedUnitSize) := by
  simp only [eval_atlas_size]
  split_ifs with hpot hsq
  · have h1 : mapLen ctx.units ≤ ceilSqrt (mapLen ctx.units) * ceilSqrt (mapLen ctx.units) :=
      ceilSqrt_spec _
    have h2 : ceilSqrt (mapLen ctx.units) * ctx.paddedUnitSize
        ≤ nextPow2 (ceilSqrt (mapLen ctx.units) * ctx.paddedUnitSize) := nextPow2_ge _
    have h3 : ceilSqrt (mapLen ctx.units)
        ≤ nextPow2 (ceilSqrt (mapLen ctx.units) * ctx.paddedUnitSize) / ctx.paddedUnitSize := by
      rw [Nat.le_div_iff_mul_le hpus]
      exact h2
    calc mapLen ctx.units
        ≤ ceilSqrt (mapLen ctx.units) * ceilSqrt (mapLen ctx.units) := h1
      _ ≤ _ := Nat.mul_le_mul h3 h3
  · rw [Nat.mul_div_cancel _ hpus]
    exact ceilSqrt_spec _
  · rw [Nat.mul_div_cancel _ hpus, Nat.mul_div_cancel _ hpus]
    exact compactLoop_area ctx (mapLen ctx.units) (ceilSqrt (mapLen ctx.units))
      ⟨ceilSqrt (mapLen ctx.units), ceilSqrt (mapLen ctx.units)⟩ (ceilSqrt_spec _)


/-! ## Bake-level pixel coverage -/

theorem flatMap_map_fst {α β : Type} (g : Nat → List β) :
    ∀ (l : List (Nat × α)),
    l.flatMap (fun p => g p.1) = (l.map Prod.fst).flatMap g := by
  intro l
  induction l with
  | nil => rfl
  | cons a t ih => rw [List.flatMap_cons, List.map_cons, List.flatMap_cons, ih]

theorem enum_flatMap_eq_range {β : Type} (g : Nat → List β) (l : List Nat) :
    l.enum.flatMap (fun p => g p.1) = (List.range l.length).flatMap g :=
  (flatMap_map_fst g l.enum).trans (by rw [List.enum_map_fst])

theorem bakeWrites_fst (ctx : Context) (size : USize) :
    (bakeWrites ctx size).map Prod.fst
      = atlasIdxs ctx.paddedUnitSize size.width
          (size.width / ctx.paddedUnitSize) (sortedKeys ctx.units).length := by
  unfold bakeWrites atlasIdxs
  rw [List.map_flatMap]
  calc (sortedKeys ctx.units).enum.flatMap
        (fun p => (blockWrites ctx.paddedUnitSize (unitOf ctx p.2).pixels
          (p.1 % (size.width / ctx.paddedUnitSize))
          (p.1 / (size.width / ctx.paddedUnitSize)) size.width).map Prod.fst)
      = (sortedKeys ctx.units).enum.flatMap
          (fun p => (List.range ctx.paddedUnitSize).flatMap fun dy =>
            (List.range ctx.paddedUnitSize).map fun dx =>
              ((p.1 / (size.width / ctx.paddedUnitSize)) * ctx.paddedUnitSize
                  + dy) * size.width
                + ((p.1 % (size.width / ctx.paddedUnitSize))
                    * ctx.paddedUnitSize + dx)) :=
        flatMap_congr_mem _ _ _ (fun p _ => by rw [blockWrites_fst])
    _ = (List.range (sortedKeys ctx.units).length).flatMap
          (fun i => (List.range ctx.paddedUnitSize).flatMap fun dy =>
            (List.range ctx.paddedUnitSize).map fun dx =>
              ((i / (size.width / ctx.paddedUnitSize)) * ctx.paddedUnitSize
                  + dy) * size.width
                + ((i % (size.width / ctx.paddedUnitSize))
                    * ctx.paddedUnitSize + dx)) :=
        enum_flatMap_eq_range
          (fun i => (List.range ctx.paddedUnitSize).flatMap fun dy =>
            (List.range ctx.paddedUnitSize).map fun dx =>
              ((i / (size.width / ctx.paddedUnitSize)) * ctx.paddedUnitSize
                  + dy) * size.width
                + ((i % (size.width / ctx.paddedUnitSize))
                    * ctx.paddedUnitSize + dx))
          (sortedKeys ctx.units)

theorem bake_pixels_eq (ctx : Context) (size : USize) :
    (bake_atlas ctx size).1.pixels
      = writeSeq (bakeWrites ctx size)
          (List.replicate (size.width * size.height) tPix) := by
  simp only [bake_atlas, set_pixels, bakeWrites]
  exact foldl_writeSeq_flatMap _ _ _

theorem bake_texture_size (ctx : Context) (size : USize) :
    (bake_atlas ctx size).1.width = size.width ∧
    (bake_atlas ctx size).1.height = size.height :=
  ⟨rfl, rfl⟩

theorem bake_rects_length (ctx : Context) (size : USize) :
    (bake_atlas ctx size).2.length = (sortedKeys ctx.units).length := by
  show ((sortedKeys ctx.units).enum.map _).length = _
  rw [List.length_map, List.enum_length]

theorem bake_coverage (ctx : Context) (size : USize)
    (hpus : 0 < ctx.paddedUnitSize)
    (hfit : (sortedKeys ctx.units).length
      ≤ (size.width / ctx.paddedUnitSize) * (size.height / ctx.paddedUnitSize))
    (hblocks : ∀ k ∈ sortedKeys ctx.units,
      (unitOf ctx k).pixels.length
        = ctx.paddedUnitSize * ctx.paddedUnitSize) :
    (∀ p : Nat, p ∉ atlasIdxs ctx.paddedUnitSize size.width
        (size.width / ctx.paddedUnitSize) (sortedKeys ctx.units).length →
      (bake_atlas ctx size).1.pixels.getD p tPix = tPix) ∧
    (∀ i, i < (sortedKeys ctx.units).length →
      regionPixels ctx.paddedUnitSize size.width (bake_atlas ctx size).1.pixels
          (i % (size.width / ctx.paddedUnitSize))
          (i / (size.width / ctx.paddedUnitSize))
        = (unitOf ctx ((sortedKeys ctx.units).getD i 0)).pixels) ∧
    ((bake_atlas ctx size).1.pixels.countP (fun px => decide (px ≠ tPix))
      = ((sortedKeys ctx.units).map (fun k =>
          (unitOf ctx k).pixels.countP (fun px => decide (px ≠ tPix)))).sum) := by
  have hpix := bake_pixels_eq ctx size
  have hfst := bakeWrites_fst ctx size
  have hnd : ((bakeWrites ctx size).map Prod.fst).Nodup := by
    rw [hfst]
    exact atlasIdxs_nodup ctx.paddedUnitSize size.width size.height
      (size.width / ctx.paddedUnitSize) (size.height / ctx.paddedUnitSize)
      (sortedKeys ctx.units).length hpus rfl rfl hfit
  have hlt : ∀ q ∈ bakeWrites ctx size, q.1 < size.width * size.height := by
    intro q hq
    have hq1 : q.1 ∈ (bakeWrites ctx size).map Prod.fst :=
      List.mem_map_of_mem Prod.fst hq
    rw [hfst, mem_atlasIdxs] at hq1
    obtain ⟨i, hi, dy, hdy, dx, hdx, heq⟩ := hq1
    obtain ⟨hxb, hyb⟩ := cell_bounds ctx.paddedUnitSize size.width size.height
      (sortedKeys ctx.units).length i (size.width / ctx.paddedUnitSize)
      (size.height / ctx.paddedUnitSize) hpus rfl rfl hfit hi
    rw [heq]
    apply idx_lt
    · omega
    · omega
  refine ⟨?_, ?_, ?_⟩
  · intro p hp
    rw [hpix, writeSeq_getD_not_mem _ _ _ (by rw [hfst]; exact hp),
      getD_replicate]
  · intro i hi
    have hkmem : (sortedKeys ctx.units).getD i 0 ∈ sortedKeys ctx.units := by
      rw [List.getD_eq_getElem _ _ hi]
      exact List.getElem_mem hi
    have hblen := hblocks _ hkmem
    have heach : ∀ dy ∈ List.range ctx.paddedUnitSize,
        ((List.range ctx.paddedUnitSize).map fun dx =>
          (bake_atlas ctx size).1.pixels.getD
            (((i / (size.width / ctx.paddedUnitSize)) * ctx.paddedUnitSize + dy)
                * size.width
              + ((i % (size.width / ctx.paddedUnitSize)) * ctx.paddedUnitSize
                + dx)) tPix)
        = ((List.range ctx.paddedUnitSize).map fun dx =>
            (unitOf ctx ((sortedKeys ctx.units).getD i 0)).pixels.getD
              (dy * ctx.paddedUnitSize + dx) tPix) := by
      intro dy hdym
      rw [List.mem_range] at hdym
      apply List.map_congr_left
      intro dx hdxm
      rw [List.mem_range] at hdxm
      rw [hpix]
      apply writeSeq_getD_mem _ _ _ _ hnd
      · unfold bakeWrites
        rw [List.mem_flatMap]
        refine ⟨(i, (sortedKeys ctx.units).getD i 0), enum_getD_mem hi, ?_⟩
        unfold blockWrites
        rw [List.mem_flatMap]
        refine ⟨dy, List.mem_range.mpr hdym, ?_⟩
        rw [List.mem_map]
        exact ⟨dx, List.mem_range.mpr hdxm, rfl⟩
      · rw [List.length_replicate]
        obtain ⟨hxb, hyb⟩ := cell_bounds ctx.paddedUnitSize size.width
          size.height (sortedKeys ctx.units).length i
          (size.width / ctx.paddedUnitSize)
          (size.height / ctx.paddedUnitSize) hpus rfl rfl hfit hi
        apply idx_lt
        · omega
        · omega
    unfold regionPixels
    rw [flatMap_congr_mem _ _ _ heach]
    exact flatMap_range_getD _ _ _ hblen
  · have hfresh : ∀ q ∈ bakeWrites ctx size,
        (fun px => decide (px ≠ tPix))
          ((List.replicate (size.width * size.height) tPix).getD q.1 tPix)
          = false := by
      intro q hq
      rw [getD_replicate]
      simp
    have hlt2 : ∀ q ∈ bakeWrites ctx size,
        q.1 < (List.replicate (size.width * size.height) tPix).length := by
      intro q hq
      rw [List.length_replicate]
      exact hlt q hq
    rw [hpix, writeSeq_countP _ _ _ hnd hlt2 hfresh,
      countP_replicate_tPix _ (by simp), Nat.zero_add]
    unfold bakeWrites
    rw [countP_flatMap]
    have h2 : ∀ p ∈ (sortedKeys ctx.units).enum,
        (blockWrites ctx.paddedUnitSize (unitOf ctx p.2).pixels
          (p.1 % (size.width / ctx.paddedUnitSize))
          (p.1 / (size.width / ctx.paddedUnitSize)) size.width).countP
            (fun q => decide (q.2 ≠ tPix))
        = (unitOf ctx p.2).pixels.countP (fun px => decide (px ≠ tPix)) := by
      intro p hp
      apply blockWrites_countP (fun px => decide (px ≠ tPix))
      apply hblocks
      have hsnd := List.mem_map_of_mem Prod.snd hp
      rw [List.enum_map_snd] at hsnd
      exact hsnd
    rw [List.map_congr_left h2]
    rw [show (fun p : Nat × Nat => (unitOf ctx p.2).pixels.countP
          fun px => decide (px ≠ tPix))
        = (fun k => (unitOf ctx k).pixels.countP
            fun px => decide (px ≠ tPix)) ∘ Prod.snd from rfl,
      ← List.map_map, List.enum_map_snd]

/-! ## Unit-pool well-formedness -/

/-- Every stored `UnitRef` indexes an existing unit of an existing texture
of the pool, so the `to_pack[tex_idx].units[unit_idx]` indexing of
packer.rs `bake_atlas` never panics. -/
def UnitsWF (c : Context) : Prop :=
  ∀ kr ∈ c.units, kr.2.texIdx < c.toPack.length ∧
    kr.2.unitIdx < (c.toPack.getD kr.2.texIdx dummyTex).units.length

theorem mem_insertAL {β : Type} (m : List (Nat × β)) (k : Nat) (v : β)
    (q : Nat × β) (h : q ∈ insertAL m k v) : q ∈ m ∨ q = (k, v) := by
  unfold insertAL at h
  split_ifs at h with hc
  · rw [List.mem_map] at h
    obtain ⟨e, he, heq⟩ := h
    by_cases h2 : e.1 = k
    · rw [if_pos h2] at heq
      exact Or.inr heq.symm
    · rw [if_neg h2] at heq
      rw [← heq]
      exact Or.inl he
  · rcases List.mem_append.mp h with h2 | h2
    · exact Or.inl h2
    · exact Or.inr (List.mem_singleton.mp h2)

theorem mem_extendAL {β : Type} : ∀ (refs m : List (Nat × β)) (q : Nat × β),
    q ∈ extendAL m refs → q ∈ m ∨ q ∈ refs := by
  intro refs
  induction refs with
  | nil => intro m q h; exact Or.inl h
  | cons e t ih =>
    intro m q h
    unfold extendAL at h
    rw [List.foldl_cons] at h
    rcases ih (insertAL m e.1 e.2) q h with h2 | h2
    · rcases mem_insertAL _ _ _ _ h2 with h3 | h3
      · exact Or.inl h3
      · right
        rw [h3]
        exact List.mem_cons_self _ _
    · exact Or.inr (List.mem_cons_of_mem _ h2)

theorem unitEntries_wf (ctx : Context) (i : Nat) (hi : i < ctx.toPack.length)
    (q : Nat × UnitRef) (hq : q ∈ unitEntries ctx i) :
    q.2.texIdx < ctx.toPack.length ∧
      q.2.unitIdx < (ctx.toPack.getD q.2.texIdx dummyTex).units.length := by
  unfold unitEntries at hq
  rw [List.mem_map] at hq
  obtain ⟨p, hp, heq⟩ := hq
  have hp1 : p.1 < (ctx.toPack.getD i dummyTex).units.length := by
    have h2 := List.mem_map_of_mem Prod.fst hp
    rw [List.enum_map_fst] at h2
    exact List.mem_range.mp h2
  rw [← heq]
  exact ⟨hi, hp1⟩

theorem admitTex_wf (c : Context) (i : Nat) (hi : i < c.toPack.length)
    (h : UnitsWF c) : UnitsWF (admitTex c i) := by
  intro kr hkr
  have hkr2 : kr ∈ extendAL c.units (unitEntries c i) := hkr
  rcases mem_extendAL _ _ _ hkr2 with h2 | h2
  · exact h kr h2
  · exact unitEntries_wf c i hi kr h2

theorem packLoop_unitsWF : ∀ (f : Nat) (c : Context),
    UnitsWF c → UnitsWF (packLoop f c) := by
  intro f
  induction f with
  | zero => exact fun c h => h
  | succ k ih =>
    intro c h
    cases hf : find_packable_texture c with
    | none => simpa only [packLoop, hf] using h
    | some i =>
      simp only [packLoop, hf]
      exact ih _ (admitTex_wf c i (find_some_spec c i hf).2 h)

theorem alookup_mem {β : Type} : ∀ (m : List (Nat × β)) (k : Nat) (v : β),
    alookup m k = some v → (k, v) ∈ m := by
  intro m
  induction m with
  | nil => intro k v h; exact Option.noConfusion h
  | cons e t ih =>
    intro k v h
    unfold alookup at h
    split_ifs at h with hc
    · injection h with h2
      have he : (k, v) = e := by rw [← hc, ← h2]
      rw [he]
      exact List.mem_cons_self _ _
    · exact List.mem_cons_of_mem _ (ih k v h)

theorem pack_it_ok_more (ctx : Context) (r : Atlas × Context)
    (h : pack_it ctx = .ok r) :
    r.1.texture = (bake_atlas (packLoop ctx.toPack.length ctx)
        (eval_atlas_size (packLoop ctx.toPack.length ctx))).1 ∧
    r.2.paddedUnitSize = ctx.paddedUnitSize := by
  unfold pack_it packFinish at h
  split_ifs at h with hc
  injection h with h2
  rw [← h2]
  refine ⟨rfl, ?_⟩
  obtain ⟨p, u, hs⟩ := packLoop_shape ctx.toPack.length ctx
  rw [hs]

theorem packRounds_atlas_propQ (P : Atlas → Prop) (Q : Context → Prop)
    (hQs : ∀ ctx r, ctx.packed = [] → ctx.toPack ≠ [] → Q ctx →
      pack_it ctx = .ok r → Q r.2)
    (hP : ∀ ctx r, ctx.packed = [] → ctx.units = [] → ctx.toPack ≠ [] →
      Q ctx → pack_it ctx = .ok r → P r.1) :
    ∀ (fuel : Nat) (ctx : Context) (acc atlases : List Atlas),
      ctx.packed = [] → ctx.units = [] → Q ctx → (∀ a ∈ acc, P a) →
      packRounds fuel ctx acc = .ok atlases → ∀ a ∈ atlases, P a := by
  intro fuel
  induction fuel with
  | zero =>
    intro ctx acc atlases hp hu hQ hacc h
    injection h with h2
    rw [← h2]
    exact hacc
  | succ f ih =>
    intro ctx acc atlases hp hu hQ hacc h
    unfold packRounds at h
    split_ifs at h with hemp
    · injection h with h2
      rw [← h2]
      exact hacc
    · cases hm : pack_it ctx with
      | error e =>
        simp only [hm] at h
        exact Except.noConfusion h
      | ok r =>
        simp only [hm] at h
        have hne : ctx.toPack ≠ [] := by
          intro hh
          rw [hh] at hemp
          exact hemp rfl
        have hPr : P r.1 := hP ctx r hp hu hne hQ hm
        have hspec := pack_it_ok_spec _ _ hm
        refine ih r.2 (acc ++ [r.1]) atlases hspec.2.2.2.2.1
          hspec.2.2.2.2.2.1 (hQs ctx r hp hne hQ hm) ?_ h
        intro a ha
        rcases List.mem_append.mp ha with h1 | h1
        · exact hacc a h1
        · rw [List.mem_singleton.mp h1]
          exact hPr

theorem round_atlas_coverage (ctx : Context) (r : Atlas × Context) (pus : Nat)
    (hp : ctx.packed = []) (hu : ctx.units = []) (hne : ctx.toPack ≠ [])
    (hpuseq : ctx.paddedUnitSize = pus) (hpus0 : 0 < pus)
    (hblk : ∀ t ∈ ctx.toPack, ∀ u ∈ t.units, u.pixels.length = pus * pus)
    (h : pack_it ctx = .ok r) :
    (∀ p : Nat, p ∉ atlasIdxs pus r.1.texture.width
        (r.1.texture.width / pus) r.1.rects.length →
      r.1.texture.pixels.getD p tPix = tPix) ∧
    r.1.texture.pixels.countP (fun px => decide (px ≠ tPix))
      = ((List.range r.1.rects.length).map fun i =>
          (regionPixels pus r.1.texture.width r.1.texture.pixels
            (i % (r.1.texture.width / pus))
            (i / (r.1.texture.width / pus))).countP
            (fun px => decide (px ≠ tPix))).sum ∧
    r.1.texture.pixels.countP (fun px => decide (px ≠ tPix))
      ≤ r.1.rects.length * (pus * pus) := by
  have hspec := pack_it_ok_spec ctx r h
  have hmore := pack_it_ok_more ctx r h
  obtain ⟨pk, un, hshape⟩ := packLoop_shape ctx.toPack.length ctx
  set c1 := packLoop ctx.toPack.length ctx with hc1
  set size := eval_atlas_size c1 with hsizedef
  have hc1pus : c1.paddedUnitSize = pus := by
    rw [hshape]
    exact hpuseq
  have hc1tp : c1.toPack = ctx.toPack := packLoop_toPack _ _
  have hwf : UnitsWF c1 := by
    apply packLoop_unitsWF
    intro kr hkr
    rw [hu] at hkr
    cases hkr
  have hblocks : ∀ k ∈ sortedKeys c1.units,
      (unitOf c1 k).pixels.length
        = c1.paddedUnitSize * c1.paddedUnitSize := by
    intro k hk
    rw [mem_sortedKeys, ← alookup_isSome_iff_mem] at hk
    obtain ⟨ref, href⟩ := Option.isSome_iff_exists.mp hk
    have hmem := alookup_mem _ _ _ href
    have hwfk := hwf _ hmem
    unfold unitOf
    rw [href]
    simp only [Option.getD_some]
    unfold resolveUnit
    rw [hc1pus]
    exact hblk _ (hc1tp ▸ getD_mem_of_lt _ _ _ hwfk.1) _
      (getD_mem_of_lt _ _ _ hwfk.2)
  have hfit : (sortedKeys c1.units).length
      ≤ (size.width / c1.paddedUnitSize)
        * (size.height / c1.paddedUnitSize) := by
    rw [sortedKeys_length]
    exact eval_atlas_size_fit c1 (by rw [hc1pus]; exact hpus0)
  have hcov := bake_coverage c1 size (by rw [hc1pus]; exact hpus0) hfit hblocks
  rw [hc1pus] at hcov hblocks
  have htex : r.1.texture = (bake_atlas c1 size).1 := hmore.1
  have hrects : r.1.rects = (bake_atlas c1 size).2 := hspec.2.1
  have hw : r.1.texture.width = size.width := by
    rw [htex]
    rfl
  have hpx : r.1.texture.pixels = (bake_atlas c1 size).1.pixels := by rw [htex]
  have hrl : r.1.rects.length = (sortedKeys c1.units).length := by
    rw [hrects]
    exact bake_rects_length c1 size
  obtain ⟨hcovA, hcovB, hcovC⟩ := hcov
  refine ⟨?_, ?_, ?_⟩
  · intro p hp2
    rw [hw, hrl] at hp2
    rw [hpx]
    exact hcovA p hp2
  · rw [hpx, hw, hrl, hcovC]
    have h4 : ∀ i ∈ List.range (sortedKeys c1.units).length,
        (regionPixels pus size.width (bake_atlas c1 size).1.pixels
          (i % (size.width / pus)) (i / (size.width / pus))).countP
          (fun px => decide (px ≠ tPix))
        = (unitOf c1 ((sortedKeys c1.units).getD i 0)).pixels.countP
            (fun px => decide (px ≠ tPix)) := by
      intro i hi2
      rw [List.mem_range] at hi2
      rw [hcovB i hi2]
    rw [List.map_congr_left h4]
    rw [range_map_getD 0 (fun k => (unitOf c1 k).pixels.countP
      fun px => decide (px ≠ tPix)) (sortedKeys c1.units)]
  · rw [hpx, hcovC, hrl]
    have h5 : ∀ x ∈ (sortedKeys c1.units).map (fun k =>
        (unitOf c1 k).pixels.countP fun px => decide (px ≠ tPix)),
        x ≤ pus * pus := by
      intro x hx
      rw [List.mem_map] at hx
      obtain ⟨k, hk, hxe⟩ := hx
      rw [← hxe]
      calc (unitOf c1 k).pixels.countP (fun px => decide (px ≠ tPix))
          ≤ (unitOf c1 k).pixels.length := List.countP_le_length _
        _ = pus * pus := hblocks k hk
    have h6 := sum_le_card_mul _ _ h5
    rw [List.length_map] at h6
    exact h6

/-! ## Claim C5: dice validation -/

/-- C5: for every sprite list and prefs, `dice` fails with the
"Unit size can't be zero." error exactly when `unit_size == 0`; otherwise it
fails with the "Padding can't be above unit size." error exactly when
`padding > unit_size`; when neither condition holds it returns `Ok`.  On
error the `Except` carries no diced texture, so no diced texture is
produced. -/
theorem dice_validation (hashFn : List Pixel → Nat)
    (sprites : List SourceSprite) (prefs : Prefs) :
    (dice hashFn sprites prefs = .error .unitZero ↔ prefs.unitSize = 0) ∧
    (dice hashFn sprites prefs = .error .padAboveUnit ↔
      (prefs.unitSize ≠ 0 ∧ prefs.padding > prefs.unitSize)) ∧
    (prefs.unitSize ≠ 0 → prefs.padding ≤ prefs.unitSize →
      ∃ l, dice hashFn sprites prefs = .ok l) := by
  unfold dice
  split_ifs with h1 h2 <;> simp_all

/-- Witness for C5 at concrete preferences. -/
theorem dice_validation_witness :
    dice (fun _ => 0) [] ⟨0, 0, 0, 2048, false, false⟩ = .error .unitZero ∧
    dice (fun _ => 0) [] ⟨1, 2, 0, 2048, false, false⟩ = .error .padAboveUnit ∧
    ∃ l, dice (fun _ => 0) [] ⟨1, 1, 0, 2048, false, false⟩ = .ok l := by
  refine ⟨?_, ?_, ?_⟩
  · exact (dice_validation (fun _ => 0) [] _).1.mpr rfl
  · exact (dice_validation (fun _ => 0) [] _).2.1.mpr ⟨by decide, by decide⟩
  · exact (dice_validation (fun _ => 0) [] _).2.2 (by decide) (by decide)

/-! ## Claim C9: dicing zero-area textures -/

/-- C9: for every sprite whose texture has width 0 or height 0, the unit
grid computed with `div_ceil` has zero cells (so the clamped `width - 1`
index computation of `get_pixel`, which would underflow on `u32`, is never
reached), `dice_it` produces no diced texture, and `dice` treats the sprite
as if absent, with no error. -/
theorem dicer_total_on_zero_area (hashFn : List Pixel → Nat)
    (sprite : SourceSprite) (prefs : Prefs) (rest : List SourceSprite)
    (hz : sprite.texture.width = 0 ∨ sprite.texture.height = 0)
    (hs : prefs.unitSize ≠ 0) (hp : prefs.padding ≤ prefs.unitSize) :
    (divCeil sprite.texture.width prefs.unitSize = 0 ∨
      divCeil sprite.texture.height prefs.unitSize = 0) ∧
    dice_it hashFn (newDCtx sprite prefs) = none ∧
    dice hashFn (sprite :: rest) prefs = dice hashFn rest prefs := by
  have hu : diceUnits hashFn (newDCtx sprite prefs) = [] :=
    diceUnits_zero_area hashFn _ hz
  have hnone : dice_it hashFn (newDCtx sprite prefs) = none := by
    unfold dice_it
    rw [hu]
    rfl
  refine ⟨?_, hnone, ?_⟩
  · rcases hz with h | h
    · left; rw [h]; exact divCeil_zero_left
    · right; rw [h]; exact divCeil_zero_left
  · unfold dice
    split_ifs
    · rfl
    · rfl
    · rw [List.filterMap_cons, hnone]

/-- Witness for C9 at a zero-width sprite. -/
theorem dicer_total_on_zero_area_witness :
    dice_it (fun _ => 0) (newDCtx ⟨"z", ⟨0, 5, []⟩, none⟩ ⟨1, 0, 0, 2048, false, false⟩)
      = none ∧
    dice (fun _ => 0) [⟨"z", ⟨0, 5, []⟩, none⟩] ⟨1, 0, 0, 2048, false, false⟩
      = dice (fun _ => 0) [] ⟨1, 0, 0, 2048, false, false⟩ := by
  have h := dicer_total_on_zero_area (fun _ => 0) ⟨"z", ⟨0, 5, []⟩, none⟩
    ⟨1, 0, 0, 2048, false, false⟩ [] (by left; rfl) (by decide) (by decide)
  exact ⟨h.2.1, h.2.2⟩

/-! ## Claim C7: hash independence of padding -/

/-- C7: for every source sprite, unit size `S > 0` and paddings
`pad1, pad2 ≤ S`, dicing with either padding yields the same sequence (hence
multiset) of unit hashes; each unit hash is computed only from the `S²`
border-clamped non-padded pixels of its cell. -/
theorem hash_padding_independent (hashFn : List Pixel → Nat)
    (s : SourceSprite) (S p1 p2 : Nat) (hs : 0 < S)
    (h1 : p1 ≤ S) (h2 : p2 ≤ S) :
    (diceUnits hashFn ⟨S, p1, s⟩).map (·.hash)
      = (diceUnits hashFn ⟨S, p2, s⟩).map (·.hash) ∧
    (∀ x y u, dice_at hashFn x y ⟨S, p1, s⟩ = some u →
      u.hash = hashFn (get_pixels ⟨(x : Int) * S, (y : Int) * S, S, S⟩ s.texture)) := by
  constructor
  · exact diceUnits_hash_indep hashFn S p1 p2 s
  · intro x y u hu
    unfold dice_at at hu
    dsimp only at hu
    split at hu
    · exact absurd hu (by simp)
    · cases hu
      rfl

/-- Witness for C7: a 1x1 blue sprite diced with paddings 0 and 1. -/
theorem hash_padding_independent_witness :
    (diceUnits hashDemo ⟨1, 0, ⟨"b", ⟨1, 1, [pixB]⟩, none⟩⟩).map (·.hash)
      = (diceUnits hashDemo ⟨1, 1, ⟨"b", ⟨1, 1, [pixB]⟩, none⟩⟩).map (·.hash) :=
  (hash_padding_independent hashDemo ⟨"b", ⟨1, 1, [pixB]⟩, none⟩ 1 0 1
    (by decide) (by decide) (by decide)).1

/-! ## Claim C1: duplicate-hash merge semantics -/

/-- C1 (amended): when an admitted texture's units are merged into the
atlas's hash-to-unit map (`HashMap::extend` in packer.rs `pack_it`), a hash
that is already present is remapped: the canonical unit recorded for a hash
is the LAST entry carrying it (`alookup refs.reverse` is the last matching
new entry), and entries already in the map are overwritten, not kept. -/
theorem extend_last_insert_wins :
    (∀ (m refs : UnitMap) (k : Nat),
        alookup (extendAL m refs) k
          = (alookup refs.reverse k).or (alookup m k)) ∧
    (∀ (ctx : Context) (i k : Nat),
        alookup (admitTex ctx i).units k
          = (alookup (unitEntries ctx i).reverse k).or (alookup ctx.units k)) := by
  refine ⟨fun m refs k => alookup_extendAL refs m k, fun ctx i k => ?_⟩
  show alookup (extendAL ctx.units (unitEntries ctx i)) k = _
  exact alookup_extendAL _ _ _

/-- C1 counterexample: two textures whose sole units share a content hash.
The packer admits texture 0 first (its unit reference is recorded for the
hash), then admits texture 1, whose entry OVERWRITES the map: the final
reference is `⟨1, 0⟩`, not the first-inserted `⟨0, 0⟩`.  Observably, the
baked UV rect has width 1 (texture 1's full 2x2 unit), while the
first-inserted unit (edge-cropped 1x1 rect, shown via `scale_uv`) would have
produced width 1/2.  This falsifies "the first insert wins". -/
theorem extend_first_insert_wins_cex :
    find_packable_texture (newCtx dlC1 prefsC1) = some 0 ∧
    alookup (admitTex (newCtx dlC1 prefsC1) 0).units hB = some ⟨0, 0⟩ ∧
    find_packable_texture (admitTex (newCtx dlC1 prefsC1) 0) = some 1 ∧
    alookup (admitTex (admitTex (newCtx dlC1 prefsC1) 0) 1).units hB = some ⟨1, 0⟩ ∧
    (UnitRef.mk 1 0) ≠ (UnitRef.mk 0 0) ∧
    (pack dlC1 prefsC1).map (fun r => r.map fun l => l.map fun a =>
        a.rects.map Prod.snd)
      = some (.ok [[FRect.mk 0 0 1 1]]) ∧
    scale_uv (newCtx dlC1 prefsC1) (FRect.mk 0 0 1 1)
        ((dlC1.getD 0 dummyTex).units.getD 0 dummyUnit)
      = FRect.mk 0 0 (Rat.divInt 1 2) (Rat.divInt 1 2) ∧
    FRect.mk 0 0 (Rat.divInt 1 2) (Rat.divInt 1 2) ≠ FRect.mk 0 0 1 1 := by
  decide

/-! ## Claim C10: no lower bound on uv_inset -/

/-- C10 (amended): pack performs no lower-bound check on `uv_inset`: the
inset validation error occurs exactly when `uv_inset > 0.5`, so every
`uv_inset ≤ 0.5` — negative values included — passes validation.  For
negative `uv_inset` the inset amount `d = uv_inset * (width / 2)` is
negative, so the inset step strictly ENLARGES the rect (smaller x and y,
larger width and height): before edge-crop scaling the UV rect strictly
contains the non-padded interior.  (The claim's stronger statement that the
STORED rect is strictly larger than the interior fails for edge-cropped
units, whose subsequent `scale_uv` shrinks it below the interior — see the
counterexample.) -/
theorem uv_inset_no_lower_bound :
    (∀ (diced : List DicedTexture) (prefs : Prefs),
        pack diced prefs = some (.error .insetRange) ↔
          (1 / 2 : ℚ) < prefs.uvInset) ∧
    (∀ (ctx : Context) (r : FRect), ctx.inset < 0 → 0 < r.width →
        (inset_uv ctx r).x < r.x ∧ (inset_uv ctx r).y < r.y ∧
        r.width < (inset_uv ctx r).width ∧
        r.height < (inset_uv ctx r).height) := by
  constructor
  · exact pack_error_inset_iff
  · intro ctx r hin hw
    unfold inset_uv
    dsimp only
    rw [qmul_eq, qdiv_eq, qadd_eq, qadd_eq, qmul_eq, qsub_eq, qsub_eq]
    have hd : ctx.inset * (r.width / 2) < 0 :=
      mul_neg_of_neg_of_pos hin (by positivity)
    refine ⟨by linarith, by linarith, by linarith, by linarith⟩

/-- Witness for C10: inset 1 is rejected; with inset -0.5 the inset step
enlarges the unit rect. -/
theorem uv_inset_no_lower_bound_witness :
    pack [] ⟨1, 0, 1, 4, false, false⟩ = some (.error .insetRange) ∧
    (inset_uv ctxNeg ⟨0, 0, 1, 1⟩).x < 0 ∧
    1 < (inset_uv ctxNeg ⟨0, 0, 1, 1⟩).width := by
  refine ⟨?_, ?_, ?_⟩
  · exact (uv_inset_no_lower_bound.1 [] _).mpr (by norm_num)
  · exact (uv_inset_no_lower_bound.2 ctxNeg ⟨0, 0, 1, 1⟩ (by decide) (by decide)).1
  · exact (uv_inset_no_lower_bound.2 ctxNeg ⟨0, 0, 1, 1⟩ (by decide) (by decide)).2.2.1

/-- C10 counterexample: a 1x1 blue texture, unit size 2, uv_inset -0.5.
Pack succeeds (no lower-bound check), but the stored UV rect is
(-1/4, -1/4, 3/4, 3/4): its width 3/4 is NOT strictly larger than the
non-padded interior width 1 (= `get_uv`'s width on the 2x2 atlas), because
edge-crop scaling halves it. -/
theorem uv_inset_negative_cex :
    (pack dlNeg prefsNeg).map (fun r => r.map fun l => l.map fun a =>
        a.rects.map Prod.snd)
      = some (.ok [[FRect.mk (Rat.divInt (-1) 4) (Rat.divInt (-1) 4)
          (Rat.divInt 3 4) (Rat.divInt 3 4)]]) ∧
    (get_uv (newCtx dlNeg prefsNeg) 0 0 ⟨2, 2⟩).width = 1 ∧
    ¬ ((1 : ℚ) < Rat.divInt 3 4) := by
  decide

/-! ## Claim C4: stored UV rect formula -/

/-- C4: for every atlas bake and every placed unit at sorted index `i`
(column `i % units_per_row`, row `i / units_per_row`), the UV rect stored in
`rects` equals the non-padded interior with top-left
`((column * padded_unit_size + padding) / atlas_width,
(row * padded_unit_size + padding) / atlas_height)` and size
`(unit_size / atlas_width, unit_size / atlas_height)`, shifted inward on
both axes by `d = uv_inset * (width / 2)` with width and height each reduced
by `2 * d`, and finally with width multiplied by
`unit.rect.width / unit_size` and height by `unit.rect.height / unit_size`
(`unit` being the canonical unit the hash resolves to). -/
theorem uv_rect_formula (ctx : Context) (size : USize) (i h : Nat) (u : UnitRef)
    (hi : i < (sortedKeys ctx.units).length)
    (hh : (sortedKeys ctx.units).getD i 0 = h)
    (hu : alookup ctx.units h = some u) :
    (bake_atlas ctx size).2.getD i (0, ⟨0, 0, 0, 0⟩)
      = (h,
         ⟨(((i % (size.width / ctx.paddedUnitSize)) * ctx.paddedUnitSize
              + ctx.pad : Nat) : ℚ) / (size.width : ℚ)
            + ctx.inset * (((ctx.unitSize : ℚ) / (size.width : ℚ)) / 2),
          (((i / (size.width / ctx.paddedUnitSize)) * ctx.paddedUnitSize
              + ctx.pad : Nat) : ℚ) / (size.height : ℚ)
            + ctx.inset * (((ctx.unitSize : ℚ) / (size.width : ℚ)) / 2),
          ((ctx.unitSize : ℚ) / (size.width : ℚ)
              - 2 * (ctx.inset * (((ctx.unitSize : ℚ) / (size.width : ℚ)) / 2)))
            * (((resolveUnit ctx u).rect.width : ℚ) / (ctx.unitSize : ℚ)),
          ((ctx.unitSize : ℚ) / (size.height : ℚ)
              - 2 * (ctx.inset * (((ctx.unitSize : ℚ) / (size.width : ℚ)) / 2)))
            * (((resolveUnit ctx u).rect.height : ℚ) / (ctx.unitSize : ℚ))⟩) := by
  have h2 : (bake_atlas ctx size).2
      = (sortedKeys ctx.units).enum.map fun p =>
          (p.2, rectAt ctx size (size.width / ctx.paddedUnitSize) p.1 p.2) := rfl
  rw [h2, List.getD_eq_getElem _ _ (by simpa using hi), List.getElem_map,
    List.getElem_enum]
  rw [List.getD_eq_getElem _ _ hi] at hh
  rw [hh]
  unfold rectAt unitOf
  rw [hu]
  unfold scale_uv inset_uv get_uv
  dsimp only [Option.getD_some]
  simp only [qadd_eq, qsub_eq, qmul_eq, qdiv_eq]
  simp only [Prod.mk.injEq, FRect.mk.injEq]
  refine ⟨trivial, ?_, ?_, ?_, ?_⟩ <;> ring

/-- Witness for C4: the single unit of `ctxW` baked on a 1x1 atlas carries
the full-atlas UV rect. -/
theorem uv_rect_formula_witness :
    (bake_atlas ctxW ⟨1, 1⟩).2.getD 0 (0, ⟨0, 0, 0, 0⟩) = (5, ⟨0, 0, 1, 1⟩) := by
  have h := uv_rect_formula ctxW ⟨1, 1⟩ 0 5 ⟨0, 0⟩ (by decide) (by decide)
    (by decide)
  rw [h]
  norm_num [ctxW, resolveUnit, dummyTex, dummyUnit]

/-! ## Claim C3: the cant-fit error characterization -/

/-- C3: assuming `uv_inset ≤ 0.5`, `atlas_size_limit > 0` and
`unit_size ≤ atlas_size_limit`, for every non-empty vector of diced
textures `pack` returns the "Can't fit single texture" error if and only if
some atlas round begins with every remaining texture having strictly more
unique hashes than
`unit_capacity = (atlas_size_limit / (unit_size + 2 * padding))²` (integer
division); otherwise `pack` returns `Ok`.  The extra hypotheses keep the
claim's own formula well defined on `u32`: the padded unit size is nonzero
(else the capacity division panics) and the capacity and per-texture unique
counts do not wrap the `u32` casts of `new_ctx` and
`find_packable_texture`. -/
theorem pack_cant_fit_iff (diced : List DicedTexture) (prefs : Prefs)
    (hne : diced ≠ []) (hin : prefs.uvInset ≤ 1 / 2)
    (hlim : prefs.atlasSizeLimit ≠ 0)
    (hsz : prefs.unitSize ≤ prefs.atlasSizeLimit)
    (hpus : 0 < prefs.unitSize + 2 * prefs.padding)
    (hpusb : prefs.unitSize + 2 * prefs.padding < U32)
    (hcap : (prefs.atlasSizeLimit / (prefs.unitSize + 2 * prefs.padding)) ^ 2
      < U32)
    (hcnt : ∀ t ∈ diced, t.unique.length < u32Max) :
    (pack diced prefs = some (.error .cantFit) ↔
      ∃ c2 ∈ roundStates (diced.length + 1) (newCtx diced prefs),
        ∀ t ∈ c2.toPack,
          (prefs.atlasSizeLimit / (prefs.unitSize + 2 * prefs.padding)) ^ 2
            < t.unique.length) ∧
    ((¬ ∃ c2 ∈ roundStates (diced.length + 1) (newCtx diced prefs),
        ∀ t ∈ c2.toPack,
          (prefs.atlasSizeLimit / (prefs.unitSize + 2 * prefs.padding)) ^ 2
            < t.unique.length) →
      ∃ l, pack diced prefs = some (.ok l)) := by
  have hpus_eq : pusOf prefs = prefs.unitSize + 2 * prefs.padding := by
    unfold pusOf
    rw [Nat.mod_eq_of_lt (by omega)]
    omega
  have hpus0 : pusOf prefs ≠ 0 := by
    rw [hpus_eq]
    omega
  have hcap_eq : capOf prefs
      = (prefs.atlasSizeLimit / (prefs.unitSize + 2 * prefs.padding)) ^ 2 := by
    unfold capOf
    rw [hpus_eq, Nat.mod_eq_of_lt hcap]
  have hpack : pack diced prefs
      = some (packRounds (diced.length + 1) (newCtx diced prefs) []) := by
    unfold pack
    rw [if_neg (by rw [qHalf_eq]; exact not_lt.mpr hin), if_neg hlim,
      if_neg (not_lt.mpr hsz), if_neg hpus0]
  have hmain := packRounds_cantFit_iff (diced.length + 1) (newCtx diced prefs)
    [] rfl rfl (by show diced.length < diced.length + 1; omega)
    (fun t ht => hcnt t ht)
  have hcond : ∀ c2 ∈ roundStates (diced.length + 1) (newCtx diced prefs),
      (allOver c2 ↔ ∀ t ∈ c2.toPack,
        (prefs.atlasSizeLimit / (prefs.unitSize + 2 * prefs.padding)) ^ 2
          < t.unique.length) := by
    intro c2 hc2
    have hcap2 : c2.unitCapacity
        = (prefs.atlasSizeLimit / (prefs.unitSize + 2 * prefs.padding)) ^ 2 := by
      rw [roundStates_capacity _ _ _ hc2]
      exact hcap_eq
    unfold allOver
    rw [hcap2]
  have hex : (∃ c2 ∈ roundStates (diced.length + 1) (newCtx diced prefs),
      allOver c2) ↔
      (∃ c2 ∈ roundStates (diced.length + 1) (newCtx diced prefs),
        ∀ t ∈ c2.toPack,
          (prefs.atlasSizeLimit / (prefs.unitSize + 2 * prefs.padding)) ^ 2
            < t.unique.length) := by
    constructor
    · rintro ⟨c2, hc2, hq⟩
      exact ⟨c2, hc2, (hcond c2 hc2).mp hq⟩
    · rintro ⟨c2, hc2, hq⟩
      exact ⟨c2, hc2, (hcond c2 hc2).mpr hq⟩
  constructor
  · rw [hpack, Option.some_inj, hmain.1, hex]
  · intro hno
    obtain ⟨l, hl⟩ := hmain.2 (fun hh => hno (hex.mp hh))
    exact ⟨l, by rw [hpack, hl]⟩

/-- Witness for C3: a single diced 1x1 blue texture packs successfully
under the default-like preferences. -/
theorem pack_cant_fit_iff_witness :
    ∃ l, pack packedB prefs1 = some (.ok l) :=
  (pack_cant_fit_iff packedB prefs1 (by decide) (by norm_num [prefs1])
    (by decide) (by decide) (by decide) (by decide) (by decide)
    (by decide)).2 (by decide)

/-! ## Claim C8: every packed unit hash is a key of rects -/

/-- C8: for every atlas returned by `pack`, every `unit.hash` of every
`DicedUnit` of every `DicedTexture` in that atlas's `packed` vector is a key
of that same atlas's `rects` map, so the UV lookup performed by the mesh
builder never misses. -/
theorem packed_hash_in_rects (diced : List DicedTexture) (prefs : Prefs)
    (atlases : List Atlas) (h : pack diced prefs = some (.ok atlases)) :
    ∀ a ∈ atlases, ∀ t ∈ a.packed, ∀ u ∈ t.units,
      (alookup a.rects u.hash).isSome := by
  unfold pack at h
  split_ifs at h with h1 h2 h3 h4
  · exact absurd h (by simp)
  · exact absurd h (by simp)
  · exact absurd h (by simp)
  · exact packRounds_atlas_prop _ round_atlas_ok _ _ _ _ rfl (by simp)
      (Option.some_injective _ h)

/-- Witness for C8: the packed 1x1 blue sprite's unit hash is a key of the
produced atlas's rects. -/
theorem packed_hash_in_rects_witness :
    (alookup (firstAtlasOf packedB prefs1).rects
      (((firstAtlasOf packedB prefs1).packed.getD 0 dummyTex).units.getD 0
        dummyUnit).hash).isSome := by
  have h : pack packedB prefs1 = some (.ok [firstAtlasOf packedB prefs1]) := by
    decide
  exact packed_hash_in_rects packedB prefs1 [firstAtlasOf packedB prefs1] h
    (firstAtlasOf packedB prefs1) (by decide)
    ((firstAtlasOf packedB prefs1).packed.getD 0 dummyTex) (by decide)
    (((firstAtlasOf packedB prefs1).packed.getD 0 dummyTex).units.getD 0
      dummyUnit) (by decide)

/-! ## Claim C2: atlas pixel coverage -/

/-- C2 (amended): for every atlas produced by `pack` (given that every
diced unit block has exactly `padded_unit_size²` pixels, as the dicer
guarantees), every pixel not covered by a placed padded block is the
transparent default `(0,0,0,0)`, and the number of non-default pixels
equals the sum over the placed padded blocks of their non-default pixel
counts — hence it is at most (and not in general equal to) the number of
distinct unit hashes placed on that atlas multiplied by
`padded_unit_size²`. -/
theorem atlas_pixel_coverage_amended (diced : List DicedTexture)
    (prefs : Prefs) (atlases : List Atlas)
    (hblk : ∀ t ∈ diced, ∀ u ∈ t.units,
      u.pixels.length = pusOf prefs * pusOf prefs)
    (h : pack diced prefs = some (.ok atlases)) :
    ∀ a ∈ atlases,
      (∀ p : Nat, p ∉ atlasIdxs (pusOf prefs) a.texture.width
          (a.texture.width / pusOf prefs) a.rects.length →
        a.texture.pixels.getD p tPix = tPix) ∧
      a.texture.pixels.countP (fun px => decide (px ≠ tPix))
        = ((List.range a.rects.length).map fun i =>
            (regionPixels (pusOf prefs) a.texture.width a.texture.pixels
              (i % (a.texture.width / pusOf prefs))
              (i / (a.texture.width / pusOf prefs))).countP
              (fun px => decide (px ≠ tPix))).sum ∧
      a.texture.pixels.countP (fun px => decide (px ≠ tPix))
        ≤ a.rects.length * (pusOf prefs * pusOf prefs) := by
  unfold pack at h
  split_ifs at h with h1 h2 h3 h4
  · exact absurd h (by simp)
  · exact absurd h (by simp)
  · exact absurd h (by simp)
  · have hpus0 : 0 < pusOf prefs := Nat.pos_of_ne_zero h4
    have hQs : ∀ ctx r, ctx.packed = [] → ctx.toPack ≠ [] →
        (ctx.paddedUnitSize = pusOf prefs ∧ ∀ t ∈ ctx.toPack, ∀ u ∈ t.units,
          u.pixels.length = pusOf prefs * pusOf prefs) →
        pack_it ctx = .ok r →
        r.2.paddedUnitSize = pusOf prefs ∧ ∀ t ∈ r.2.toPack, ∀ u ∈ t.units,
          u.pixels.length = pusOf prefs * pusOf prefs := by
      intro ctx r hp hne hQ hm
      have hspec := pack_it_ok_spec ctx r hm
      have hmore := pack_it_ok_more ctx r hm
      refine ⟨by rw [hmore.2]; exact hQ.1, ?_⟩
      intro t ht u hu2
      rw [hspec.2.2.2.1] at ht
      have hsub := (extract_spec (packLoop ctx.toPack.length ctx)
        (by rw [packLoop_toPack]; exact hne)).2.2 t ht
      rw [packLoop_toPack] at hsub
      exact hQ.2 t hsub u hu2
    exact packRounds_atlas_propQ
      (fun a =>
        (∀ p : Nat, p ∉ atlasIdxs (pusOf prefs) a.texture.width
            (a.texture.width / pusOf prefs) a.rects.length →
          a.texture.pixels.getD p tPix = tPix) ∧
        a.texture.pixels.countP (fun px => decide (px ≠ tPix))
          = ((List.range a.rects.length).map fun i =>
              (regionPixels (pusOf prefs) a.texture.width a.texture.pixels
                (i % (a.texture.width / pusOf prefs))
                (i / (a.texture.width / pusOf prefs))).countP
                (fun px => decide (px ≠ tPix))).sum ∧
        a.texture.pixels.countP (fun px => decide (px ≠ tPix))
          ≤ a.rects.length * (pusOf prefs * pusOf prefs))
      (fun c => c.paddedUnitSize = pusOf prefs ∧
        ∀ t ∈ c.toPack, ∀ u ∈ t.units,
          u.pixels.length = pusOf prefs * pusOf prefs)
      hQs
      (fun ctx r hp hu hne hQ hm =>
        round_atlas_coverage ctx r (pusOf prefs) hp hu hne hQ.1 hpus0
          hQ.2 hm)
      (diced.length + 1) (newCtx diced prefs) [] atlases rfl rfl
      ⟨rfl, hblk⟩ (fun a ha => absurd ha (List.not_mem_nil a))
      (Option.some_injective _ h)

/-- C2 counterexample: a 2x2 texture with three blue pixels and one
transparent default pixel, diced at unit size 2 without padding, packs
into an atlas with exactly 3 non-default pixels, while one distinct hash
is placed and `padded_unit_size²` is 4: the claimed count equality
`non_default = placed · padded_unit_size²` fails. -/
theorem atlas_pixel_coverage_cex :
    pack dlC2 prefsC2 = some (.ok [firstAtlasOf dlC2 prefsC2]) ∧
    (firstAtlasOf dlC2 prefsC2).rects.length = 1 ∧
    pusOf prefsC2 = 2 ∧
    (firstAtlasOf dlC2 prefsC2).texture.pixels.countP
        (fun px => decide (px ≠ tPix)) = 3 ∧
    (firstAtlasOf dlC2 prefsC2).texture.pixels.countP
        (fun px => decide (px ≠ tPix))
      ≠ (firstAtlasOf dlC2 prefsC2).rects.length
          * (pusOf prefsC2 * pusOf prefsC2) := by
  refine ⟨by decide, by decide, by decide, by decide, by decide⟩

/-- Witness for C2: the amended coverage bound at the concrete packed
atlas of `dlC2`. -/
theorem atlas_pixel_coverage_witness :
    (firstAtlasOf dlC2 prefsC2).texture.pixels.countP
        (fun px => decide (px ≠ tPix))
      ≤ (firstAtlasOf dlC2 prefsC2).rects.length
          * (pusOf prefsC2 * pusOf prefsC2) :=
  ((atlas_pixel_coverage_amended dlC2 prefsC2 [firstAtlasOf dlC2 prefsC2]
      (by decide) (by decide)) (firstAtlasOf dlC2 prefsC2) (by decide)).2.2

/-! ## Claim C6: pack validation and empty input -/

/-- C6 (amended): `pack` fails with the inset error iff `uv_inset > 0.5`,
with the zero-limit error iff the inset check passes and
`atlas_size_limit == 0`, and with the unit-above-limit error iff both prior
checks pass and `unit_size > atlas_size_limit` — the three checks in that
precedence order, before any atlas is emitted, for every input including
the empty one.  When all checks pass and the input is empty, `pack`
returns an empty atlas list PROVIDED `unit_size + 2 * padding ≠ 0`; when
that sum is zero the capacity computation divides by zero and the Rust
process aborts instead of returning (see the counterexample). -/
theorem pack_validation_amended :
    (∀ (diced : List DicedTexture) (prefs : Prefs),
        pack diced prefs = some (.error .insetRange) ↔
          (1 / 2 : ℚ) < prefs.uvInset) ∧
    (∀ (diced : List DicedTexture) (prefs : Prefs),
        pack diced prefs = some (.error .limitZero) ↔
          (prefs.uvInset ≤ 1 / 2 ∧ prefs.atlasSizeLimit = 0)) ∧
    (∀ (diced : List DicedTexture) (prefs : Prefs),
        pack diced prefs = some (.error .unitAboveLimit) ↔
          (prefs.uvInset ≤ 1 / 2 ∧ prefs.atlasSizeLimit ≠ 0 ∧
           prefs.atlasSizeLimit < prefs.unitSize)) ∧
    (∀ prefs : Prefs, prefs.uvInset ≤ 1 / 2 → prefs.atlasSizeLimit ≠ 0 →
        prefs.unitSize ≤ prefs.atlasSizeLimit → pusOf prefs ≠ 0 →
        pack [] prefs = some (.ok [])) :=
  ⟨pack_error_inset_iff, pack_error_limit_iff, pack_error_unit_iff,
   pack_empty_ok⟩

/-- C6 counterexample: with `unit_size = 0` and `padding = 0` all three
validation checks pass, yet on empty input `pack` does not return an empty
atlas list — the capacity division `atlas_size_limit / 0` aborts the Rust
process (modelled as `none`). -/
theorem pack_validation_cex :
    pack [] ⟨0, 0, 0, 2048, false, false⟩ = none ∧
    (none : Option (Except Err (List Atlas))) ≠ some (.ok []) := by
  constructor
  · decide
  · decide

/-- Witness for C6: empty input with valid preferences yields an empty
atlas list. -/
theorem pack_validation_witness :
    pack [] ⟨1, 0, 0, 2048, false, false⟩ = some (.ok []) :=
  pack_validation_amended.2.2.2 ⟨1, 0, 0, 2048, false, false⟩
    (by norm_num) (by decide) (by decide) (by decide)

end SD

section SanityExamples

open SD

example :
    (diceUnits (fun l => l.length) (newDCtx ⟨"t", rgbyTex, none⟩
      ⟨1, 0, 0, 2048, false, false⟩)).length = 4 := by decide

example :
    dice (fun _ => 0) [⟨"t", ⟨1, 1, [tPix]⟩, none⟩] ⟨1, 0, 0, 2048, false, false⟩
      = .ok [] := by decide

-- repo test `uvs_are_mapped`: a single 1x1 sprite maps to the full atlas.
example :
    (pack (diceOf ⟨1, 1, [pixR]⟩ prefs1) prefs1).map (fun r =>
      r.map fun atlases => (atlases.map fun a => a.rects))
      = some (.ok [[(hashDemo [pixR], ⟨0, 0, 1, 1⟩)]]) := by decide

-- repo test `inset_uvs_are_scaled`: uv_inset 0.2 gives (0.1, 0.1, 0.8, 0.8).
example :
    (pack (diceOf ⟨1, 1, [pixY]⟩ ⟨1, 0, Rat.divInt 1 5, 2048, false, false⟩)
        ⟨1, 0, Rat.divInt 1 5, 2048, false, false⟩).map (fun r =>
      r.map fun atlases => atlases.map fun a => a.rects.map Prod.snd)
      = some (.ok [[⟨Rat.divInt 1 10, Rat.divInt 1 10, Rat.divInt 4 5,
          Rat.divInt 4 5⟩]]) := by decide

-- repo test `overflow_uvs_are_cropped`: M 1x1 with unit_size 2 and padding 1
-- stores the UV rect (0.25, 0.25, 0.25, 0.25).
example :
    (pack (diceOf ⟨1, 1, [pixM]⟩ ⟨2, 1, 0, 2048, false, false⟩)
        ⟨2, 1, 0, 2048, false, false⟩).map (fun r =>
      r.map fun atlases => atlases.map fun a => a.rects.map Prod.snd)
      = some (.ok [[⟨Rat.divInt 1 4, Rat.divInt 1 4, Rat.divInt 1 4,
          Rat.divInt 1 4⟩]]) := by decide

-- repo test `when_square_is_not_optimal_atlas_is_not_square`: 5 units in a
-- size-4 limit give a 3x2 atlas.
example :
    (pack rgbyC ⟨1, 0, 0, 4, false, false⟩).map (fun r =>
      r.map fun atlases => atlases.map fun a => (a.texture.width, a.texture.height))
      = some (.ok [(3, 2)]) := by decide

-- repo test `when_pot_forced_atlas_is_power_of_two` and
-- `unused_pixels_are_clear`: forced pot gives 4x4 with 11 clear pixels.
example :
    (pack rgbyC ⟨1, 0, 0, 4, false, true⟩).map (fun r =>
      r.map fun atlases => atlases.map fun a =>
        (a.texture.width, a.texture.height,
         a.texture.pixels.countP (fun p => p = tPix)))
      = some (.ok [(4, 4, 11)]) := by decide

-- repo test `when_content_doesnt_fit_multiple_atlases_are_produced`.
example :
    (pack (diceOf ⟨1, 1, [pixB]⟩ ⟨1, 0, 0, 1, false, false⟩ ++
           diceOf ⟨1, 1, [pixR]⟩ ⟨1, 0, 0, 1, false, false⟩)
        ⟨1, 0, 0, 1, false, false⟩).map (fun r =>
      r.map fun atlases => atlases.length) = some (.ok 2) := by decide

-- repo test `errs_when_content_from_single_texture_doesnt_fit`.
example :
    pack (diceOf ⟨2, 2, [pixB, pixG, pixR, tPix]⟩ ⟨1, 0, 0, 1, false, false⟩)
        ⟨1, 0, 0, 1, false, false⟩ = some (.error .cantFit) := by decide

end SanityExamples
